import Mathlib

/-! # harlot: connection pooler, frame codec, SNI peeker, handlers

A shallow embedding of `server/connection_pool.go`, of the frame primitives and
the Login, Register and Tunnel handlers of `server/actions.go`, of
`ReadSNIFromClientHello`, `GenerateToken` and the token store of
`server/server_utils.go`, of the subdomain routing and the acquire loop of
`PublicServerHandler` in `server/server.go`, and of `ReqResQueue` in
`client/client_utils.go`.

Conventions of the embedding

* Go `map[string]*Session` is an association list with at most one entry per
  key (`GoMap`); `m[k]` is `GoMap.get`, `m[k] = v` is `GoMap.set`,
  `delete(m, k)` is `GoMap.delete`.
* `*Session` is an address into `State.heap`; `&Session{..}` allocates at the
  end of the heap. Dereferencing an address that is not allocated is the nil
  dereference panic of Go and makes an operation return `none`.
* A buffered channel `chan *Conn` is the list of its queued elements, oldest
  first, with capacity `MAX_CHAN_SIZE`.
* Go `int` is the 64-bit two's complement integer (`wrap64`).
* `net.Conn` values are socket identifiers; `Close` appends the identifier to
  `State.closed`, a write appends the bytes to `State.sent`.
* Mutexes are not modelled: every operation runs to completion on its own.
-/

set_option linter.dupNamespace false

namespace Harlot

/-! ## Go maps with string keys -/

/-- Go map with string keys: association list, one entry per key. -/
abbrev GoMap (V : Type) := List (String × V)

namespace GoMap

/-- The lookup `v, ok := m[k]`. -/
def get {V : Type} : GoMap V → String → Option V
  | [], _ => none
  | (k', v) :: m, k => if k' = k then some v else get m k

/-- The statement `delete(m, k)`. -/
def delete {V : Type} : GoMap V → String → GoMap V
  | [], _ => []
  | (k', v) :: m, k => if k' = k then delete m k else (k', v) :: delete m k

/-- The assignment `m[k] = v`. -/
def set {V : Type} (m : GoMap V) (k : String) (v : V) : GoMap V :=
  (k, v) :: delete m k

/-- Whether `k` is a key (`_, ok := m[k]`). -/
def has {V : Type} (m : GoMap V) (k : String) : Bool :=
  (get m k).isSome

end GoMap

/-! ## connection_pool.go -/

/-- Constant `MAX_CHAN_SIZE`. -/
def MAX_CHAN_SIZE : Nat := 99999

/-- The error values of connection_pool.go. -/
inductive PoolError where
  | PoolFullError
  | PoolEmptyError
  | SessionNotFoundError
  | SubdomainNotFoundError
  | SubdomainAlreadyExistsError
  deriving DecidableEq, Repr

/-- Socket identifier standing for a `net.Conn`. -/
abbrev Sock := Nat

/-- Address of a `Session` in the heap. -/
abbrev Ptr := Nat

/-- Struct `Conn`: `StartTime` in nanoseconds, `Done` a channel identifier. -/
structure Conn where
  SessionID : String
  Conn : Sock
  StartTime : Int
  Done : Nat
  deriving DecidableEq, Repr

/-- Struct `Session` (the mutexes are left out). -/
structure Session where
  SessionID : String
  Subdomain : String
  TunnelConn : Sock
  Connections : List Conn
  NextOpen : Int
  deriving DecidableEq, Repr

/-- Struct `ConnectionPooler`: both indexes hold session addresses. -/
structure ConnectionPooler where
  Sessions : GoMap Ptr
  SubdomainToSession : GoMap Ptr
  IdleTimeout : Int
  deriving DecidableEq, Repr

/-- The pooler together with the memory and sockets its methods act on. -/
structure State where
  cp : ConnectionPooler
  heap : List Session
  closed : List Sock
  sent : List (Sock × List Nat)
  deriving DecidableEq, Repr

/-- Dereference of a session pointer. -/
def State.deref (w : State) (p : Ptr) : Option Session := w.heap[p]?

/-- Go `int` arithmetic: reduction into the signed 64-bit range. -/
def wrap64 (x : Int) : Int := (x + 2 ^ 63) % 2 ^ 64 - 2 ^ 63

/-- The loop of `GetNextOpen`: `for start := 5; start != 0; start *= 2`, with
`newLimit` still 5 when the loop ends by `start == 0`. -/
def GetNextOpenLoop : Nat → Int → Int → Option Int
  | 0, _, _ => none
  | fuel + 1, start, length =>
    if start = 0 then some 5
    else if start > length then some start
    else GetNextOpenLoop fuel (wrap64 (start * 2)) length

/-- Function `GetNextOpen`; 65 rounds are enough for every argument
(`GetNextOpenLoop_enough`). -/
def GetNextOpen (length : Int) : Int := (GetNextOpenLoop 65 5 length).getD 5

/-- One second and one minute as `time.Duration` (nanoseconds). -/
def Second : Int := 1000000000

/-- Function `NewConnectionPooler`. -/
def NewConnectionPooler : ConnectionPooler :=
  { Sessions := [], SubdomainToSession := [], IdleTimeout := 60 * Second }

/-- The state of a freshly started server. -/
def State.init : State :=
  { cp := NewConnectionPooler, heap := [], closed := [], sent := [] }

/-- Method `IsSessionInPool`. -/
def IsSessionInPool (w : State) (sessionID : String) : Bool :=
  w.cp.Sessions.has sessionID

/-- Method `IsSubdomainInPool`. -/
def IsSubdomainInPool (w : State) (subdomain : String) : Bool :=
  w.cp.SubdomainToSession.has subdomain

/-- Method `HasSession`. -/
def HasSession (w : State) (sessionID : String) : Bool := IsSessionInPool w sessionID

/-- Method `HasSubdomain`. -/
def HasSubdomain (w : State) (subdomain : String) : Bool := IsSubdomainInPool w subdomain

/-- Method `GetSession`: the pointer stored for the subdomain (`none` is the
nil pointer a Go map yields for a missing key). -/
def GetSession (w : State) (subdomain : String) : Except PoolError (Option Ptr) :=
  if !HasSubdomain w subdomain then .error .SubdomainNotFoundError
  else .ok (w.cp.SubdomainToSession.get subdomain)

/-- Method `AddSession`: the result and the state afterwards. -/
def AddSession (w : State) (sessionID subdomain : String) (tunnel : Sock) :
    Except PoolError Ptr × State :=
  if w.cp.SubdomainToSession.has subdomain then (.error .SubdomainAlreadyExistsError, w)
  else
    let newSession : Session :=
      { SessionID := sessionID, Subdomain := subdomain, TunnelConn := tunnel,
        NextOpen := 5, Connections := [] }
    let p := w.heap.length
    (.ok p,
     { w with
       heap := w.heap ++ [newSession]
       cp := { w.cp with
               SubdomainToSession := w.cp.SubdomainToSession.set subdomain p
               Sessions := w.cp.Sessions.set sessionID p } })

/-- Method `RemoveSession`: `none` is the panic of `(*session).Subdomain` on a
pointer that is not allocated. -/
def RemoveSession (w : State) (sessionID : String) : Option (Option PoolError × State) :=
  if !IsSessionInPool w sessionID then some (some .SessionNotFoundError, w)
  else
    match (w.cp.Sessions.get sessionID).bind w.deref with
    | none => none
    | some session =>
      let subdomain := session.Subdomain
      some (none,
        { w with
          cp := { w.cp with
                  Sessions := w.cp.Sessions.delete sessionID
                  SubdomainToSession := w.cp.SubdomainToSession.delete subdomain } })

/-- Method `GetConn`: non-blocking receive from the session's channel. -/
def GetConn (w : State) (sessionID : String) : Option (Except PoolError Conn × State) :=
  if !IsSessionInPool w sessionID then some (.error .SessionNotFoundError, w)
  else
    match w.cp.Sessions.get sessionID with
    | none => none
    | some p =>
      match w.deref p with
      | none => none
      | some sess =>
        match sess.Connections with
        | c :: rest =>
          some (.ok c, { w with heap := w.heap.set p { sess with Connections := rest } })
        | [] => some (.error .PoolEmptyError, w)

/-- Method `PutConn`: non-blocking send on the session's channel. -/
def PutConn (w : State) (sessionID : String) (c : Conn) : Option (Option PoolError × State) :=
  if !IsSessionInPool w sessionID then some (some .SessionNotFoundError, w)
  else
    match w.cp.Sessions.get sessionID with
    | none => none
    | some p =>
      match w.deref p with
      | none => none
      | some sess =>
        if sess.Connections.length < MAX_CHAN_SIZE then
          some (none,
            { w with heap := w.heap.set p { sess with Connections := sess.Connections ++ [c] } })
        else some (some .PoolFullError, w)

/-- The inner loop of `Prune`, `for i := 0; i < connLength; i++`: the remaining
number of rounds, the channel and the sockets closed so far. A receive from
an empty channel would block; it does not happen, the number of rounds being
the length of the channel when the loop starts. -/
def pruneLoop (IdleTimeout now : Int) : Nat → List Conn → List Sock → List Conn × List Sock
  | 0, q, closed => (q, closed)
  | _ + 1, [], closed => ([], closed)
  | n + 1, curr :: q, closed =>
    if now - curr.StartTime < IdleTimeout then pruneLoop IdleTimeout now n (q ++ [curr]) closed
    else pruneLoop IdleTimeout now n q (closed ++ [curr.Conn])

/-- The body of the `range cp.Sessions` loop of `Prune` for one session. -/
def pruneSession (IdleTimeout now : Int) (sess : Session) (closed : List Sock) :
    Session × List Sock :=
  let connLength := sess.Connections.length
  let r := pruneLoop IdleTimeout now connLength sess.Connections closed
  let newConnLength := r.1.length
  ({ sess with Connections := r.1, NextOpen := GetNextOpen newConnLength }, r.2)

/-- The `range cp.Sessions` loop of `Prune` over the entries still to visit. -/
def pruneEntries (IdleTimeout now : Int) :
    List (String × Ptr) → List Session → List Sock → Option (List Session × List Sock)
  | [], heap, closed => some (heap, closed)
  | (_, p) :: es, heap, closed =>
    match heap[p]? with
    | none => none
    | some sess =>
      let r := pruneSession IdleTimeout now sess closed
      pruneEntries IdleTimeout now es (heap.set p r.1) r.2

/-- Method `Prune` at the instant `now` (the readings of `time.Now()` during
one call are taken as that one instant); the entries are visited in the order
of the association list. -/
def Prune (now : Int) (w : State) : Option State :=
  match pruneEntries w.cp.IdleTimeout now w.cp.Sessions w.heap w.closed with
  | none => none
  | some (heap, closed) => some { w with heap := heap, closed := closed }

/-- Function `WriteUint32`: the four big-endian bytes of the value. -/
def WriteUint32 (value : Nat) : List Nat :=
  [value / 2 ^ 24 % 256, value / 2 ^ 16 % 256, value / 2 ^ 8 % 256, value % 256]

/-- Method `OpenMoreConns`: writes `uint32(session.NextOpen)` on the tunnel
socket, then replaces `NextOpen` by `GetNextOpen(NextOpen)`. The returned error
is that of the socket write and is not part of the state. -/
def OpenMoreConns (w : State) (session : Ptr) : Option State :=
  match w.deref session with
  | none => none
  | some sess =>
    some { w with
           sent := w.sent ++ [(sess.TunnelConn, WriteUint32 (sess.NextOpen % 2 ^ 32).toNat)]
           heap := w.heap.set session { sess with NextOpen := GetNextOpen sess.NextOpen } }

/-- States reachable from `NewConnectionPooler()` by `AddSession` and
`RemoveSession` calls. -/
inductive Reachable : State → Prop where
  | init : Reachable State.init
  | add (w : State) (sessionID subdomain : String) (tunnel : Sock) :
      Reachable w → Reachable (AddSession w sessionID subdomain tunnel).2
  | remove (w w' : State) (sessionID : String) (e : Option PoolError) :
      Reachable w → RemoveSession w sessionID = some (e, w') → Reachable w'

/-- The two indexes agree on every allocated session `s` at address `p`: `p` is
the value of `Sessions[s.SessionID]` iff it is the value of
`SubdomainToSession[s.Subdomain]`. -/
def IndexesAgree (w : State) : Prop :=
  ∀ p s, w.deref p = some s →
    (w.cp.Sessions.get s.SessionID = some p ↔ w.cp.SubdomainToSession.get s.Subdomain = some p)

/-- Two tunnels opened with the same session id and different subdomains. -/
def twoTunnelsOneID : State :=
  (AddSession (AddSession State.init "S0" "alpha" 1).2 "S0" "beta" 2).2

/-- An idle worker on socket 7, queued at time 0. -/
def idleWorker : Conn := { SessionID := "S0", Conn := 7, StartTime := 0, Done := 0 }

/-- The session `S0`/`alpha` with that worker in its queue. -/
def sessionWithWorker : Session :=
  { SessionID := "S0", Subdomain := "alpha", TunnelConn := 1,
    Connections := [idleWorker], NextOpen := 5 }

/-- A pooler holding only the session `S0`/`alpha` with its one idle worker. -/
def oneIdleWorker : State :=
  { cp := { Sessions := [("S0", 0)], SubdomainToSession := [("alpha", 0)],
            IdleTimeout := 60 * Second }
    heap := [sessionWithWorker]
    closed := []
    sent := [] }

/-! ## actions.go: frame primitives

`binary.Read` and `binary.Write` of `encoding/binary` with `binary.BigEndian`,
on the Go types `uint32`, `bool` and `[]byte`. A reader is the list of the bytes
it still delivers; a read returns the value and the rest of the reader. A
writer function returns the bytes it writes. A byte is a natural number below
256, and `int(x)<<8 | int(y)` on bytes is `x * 256 + y`. -/

/-- The errors of `io.ReadFull`. -/
inductive ReadError where
  | EOF
  | ErrUnexpectedEOF
  deriving DecidableEq, Repr

/-- Function `io.ReadFull` for `n` bytes: `EOF` when nothing could be read,
`ErrUnexpectedEOF` when the reader ends after some but not all of them. -/
def readFull (reader : List Nat) (n : Nat) : Except ReadError (List Nat × List Nat) :=
  if n ≤ reader.length then .ok (reader.take n, reader.drop n)
  else if reader.length = 0 then .error .EOF
  else .error .ErrUnexpectedEOF

/-- Function `ReadUint32`. -/
def ReadUint32 (reader : List Nat) : Except ReadError (Nat × List Nat) :=
  match readFull reader 4 with
  | .error e => .error e
  | .ok (b, rest) =>
    .ok (b.getD 0 0 * 2 ^ 24 + b.getD 1 0 * 2 ^ 16 + b.getD 2 0 * 2 ^ 8 + b.getD 3 0, rest)

/-- Function `ReadBool`: a byte other than 0 is `true`. -/
def ReadBool (reader : List Nat) : Except ReadError (Bool × List Nat) :=
  match readFull reader 1 with
  | .error e => .error e
  | .ok (b, rest) => .ok (b.getD 0 0 != 0, rest)

/-- Function `ReadIntoBuffer`. -/
def ReadIntoBuffer (reader : List Nat) (bLen : Nat) : Except ReadError (List Nat × List Nat) :=
  readFull reader bLen

/-- Function `WriteBool`. -/
def WriteBool (value : Bool) : List Nat := [if value then 1 else 0]

/-- Function `WriteBuffer`. -/
def WriteBuffer (value : List Nat) : List Nat := value

/-- The two reads every handler makes for a length-prefixed field:
`ReadUint32` and then `ReadIntoBuffer` of that length. -/
def readLengthPrefixed (reader : List Nat) : Except ReadError (List Nat × List Nat) :=
  match ReadUint32 reader with
  | .error e => .error e
  | .ok (bLen, rest) => ReadIntoBuffer rest bLen

/-! ## server_utils.go: ReadSNIFromClientHello

A Go slice is a window `[lo, hi)` on its backing array; its capacity reaches to
the end of the array. Index and slice expressions out of range panic. -/

/-- A `[]byte`: backing array and window. -/
structure Slice where
  arr : List Nat
  lo : Nat
  hi : Nat
  deriving DecidableEq, Repr

/-- The error returns of `bufio.Reader.Peek`: the buffer is smaller than the
request, or the connection ended (or failed) before enough bytes came. -/
inductive PeekError where
  | ErrBufferFull
  | EOF
  deriving DecidableEq, Repr

/-- The error returns of `ReadSNIFromClientHello`. -/
inductive SNIError where
  | peek (e : PeekError)
  | atLeast9Bytes
  | notTlsRecordHeader
  | notTls10
  | failedToFetchEntireClientHello
  | notClientHello
  deriving DecidableEq, Repr

/-- The ways `ReadSNIFromClientHello` ends without a server name: an error
return, a run-time panic, or the model's loop bound (never reached, every
round of the loop drops at least 4 bytes of the record). -/
inductive Failure where
  | error (e : SNIError)
  | panic
  | fuel
  deriving DecidableEq, Repr

namespace Slice

/-- Go `len(s)`. -/
def len (s : Slice) : Nat := s.hi - s.lo

/-- Go `s[i]`. -/
def index (s : Slice) (i : Nat) : Except Failure Nat :=
  if i < s.len then
    match s.arr[s.lo + i]? with
    | some b => .ok b
    | none => .error .panic
  else .error .panic

/-- Go `s[a:]`, in range when `a <= len(s)`. -/
def sliceFrom (s : Slice) (a : Nat) : Except Failure Slice :=
  if a ≤ s.len then .ok { s with lo := s.lo + a } else .error .panic

/-- Go `s[:b]`, in range when `b <= cap(s)`. -/
def sliceTo (s : Slice) (b : Nat) : Except Failure Slice :=
  if s.lo + b ≤ s.arr.length then .ok { s with hi := s.lo + b } else .error .panic

/-- Go `string(s)`, as the list of its bytes. -/
def bytes (s : Slice) : List Nat := (s.arr.drop s.lo).take s.len

end Slice

/-- A `bufio.Reader` on which nothing has been read yet: the bytes its
connection delivers before it ends, and the size of its buffer (4096 for
`bufio.NewReader`). -/
structure Reader where
  stream : List Nat
  size : Nat
  deriving DecidableEq, Repr

/-- Method `Peek` of `bufio.Reader`: the first `n` bytes, as a slice of the
buffer. The buffer is taken as filled with all the bytes of the stream that
fit, and zero after them. -/
def Reader.Peek (r : Reader) (n : Nat) : Except PeekError Slice :=
  if n > r.size then .error .ErrBufferFull
  else if r.stream.length < n then .error .EOF
  else .ok { arr := r.stream.take r.size ++ List.replicate (r.size - r.stream.length) 0,
             lo := 0, hi := n }

/-- The extension loop of `ReadSNIFromClientHello` (the `for` of lines 170 to
196), on the record from the first extension on. -/
def extensionLoop : Nat → Slice → Except Failure (List Nat)
  | 0, _ => .error .fuel
  | fuel + 1, fullRecord => do
    let e0 ← fullRecord.index 0
    let e1 ← fullRecord.index 1
    let extensionData := e0 * 256 + e1
    let l0 ← fullRecord.index 2
    let l1 ← fullRecord.index 3
    let extensionLength := l0 * 256 + l1
    if extensionData = 0 then
      let fullRecord ← fullRecord.sliceFrom 4
      let fullRecord ← fullRecord.sliceTo extensionLength
      let c0 ← fullRecord.index 0
      let c1 ← fullRecord.index 1
      let currLength := c0 * 256 + c1
      let nameType ← fullRecord.index 2
      let serverName ←
        if nameType = 0 then (fullRecord.sliceFrom 5).map Slice.bytes else pure []
      let _ ← fullRecord.sliceFrom (2 + currLength)
      pure serverName
    else
      let fullRecord ← fullRecord.sliceFrom (4 + extensionLength)
      extensionLoop fuel fullRecord

/-- Lines 127 to 167 of `ReadSNIFromClientHello`: from the whole record to the
first extension. -/
def skipToExtensions (fullRecord : Slice) : Except Failure Slice := do
  let fullRecord ← fullRecord.sliceFrom 5
  let handshakeType ← fullRecord.index 0
  if handshakeType ≠ 1 then throw (.error .notClientHello)
  let fullRecord ← fullRecord.sliceFrom 4
  let fullRecord ← fullRecord.sliceFrom 2
  let fullRecord ← fullRecord.sliceFrom 32
  let sessionIDLength ← fullRecord.index 0
  let fullRecord ← fullRecord.sliceFrom 1
  let fullRecord ← fullRecord.sliceFrom sessionIDLength
  let s0 ← fullRecord.index 0
  let s1 ← fullRecord.index 1
  let cipherSuiteLength := s0 * 256 + s1
  let fullRecord ← fullRecord.sliceFrom 2
  let fullRecord ← fullRecord.sliceFrom cipherSuiteLength
  let cmLength ← fullRecord.index 0
  let fullRecord ← fullRecord.sliceFrom 1
  let fullRecord ← fullRecord.sliceFrom cmLength
  fullRecord.sliceFrom 2

/-- Function `ReadSNIFromClientHello`. -/
def ReadSNIFromClientHello (peakReader : Reader) : Except Failure (List Nat) :=
  match peakReader.Peek 9 with
  | .error e => .error (.error (.peek e))
  | .ok header =>
    if header.len < 9 then .error (.error .atLeast9Bytes)
    else do
      let h0 ← header.index 0
      if h0 ≠ 0x16 then throw (.error .notTlsRecordHeader)
      let h1 ← header.index 1
      let h2 ← if h1 ≠ 0x03 then pure 0 else header.index 2
      if h1 ≠ 0x03 ∨ h2 ≠ 0x01 then throw (.error .notTls10)
      let h3 ← header.index 3
      let h4 ← header.index 4
      let recordLength := h3 * 256 + h4
      match peakReader.Peek (5 + recordLength) with
      | .error e => throw (.error (.peek e))
      | .ok fullRecord =>
        if recordLength + 5 ≠ fullRecord.len then
          throw (.error .failedToFetchEntireClientHello)
        let fullRecord ← skipToExtensions fullRecord
        extensionLoop (fullRecord.len + 1) fullRecord

/-! ### The wire format of a ClientHello record (RFC 8446 and RFC 6066) -/

/-- Big-endian 16-bit and 24-bit length fields. -/
def u16 (n : Nat) : List Nat := [n / 256 % 256, n % 256]

/-- Big-endian 24-bit length field. -/
def u24 (n : Nat) : List Nat := [n / 65536 % 256, n / 256 % 256, n % 256]

/-- A TLS extension: its type and its data. -/
structure Extension where
  type : Nat
  data : List Nat
  deriving DecidableEq, Repr

/-- The bytes of an extension: 2-byte type, 2-byte length, data. -/
def Extension.encode (e : Extension) : List Nat := u16 e.type ++ u16 e.data.length ++ e.data

/-- The bytes of a list of extensions. -/
def encodeExtensions : List Extension → List Nat
  | [] => []
  | e :: es => e.encode ++ encodeExtensions es

/-- An entry of the server-name list: name type and name. -/
structure ServerName where
  nameType : Nat
  name : List Nat
  deriving DecidableEq, Repr

/-- The bytes of a server-name entry: 1-byte type, 2-byte length, name. -/
def ServerName.encode (n : ServerName) : List Nat := [n.nameType] ++ u16 n.name.length ++ n.name

/-- The bytes of a list of server-name entries. -/
def encodeServerNames : List ServerName → List Nat
  | [] => []
  | n :: ns => n.encode ++ encodeServerNames ns

/-- The data of a `server_name` extension: 2-byte list length, entries. -/
def serverNameData (names : List ServerName) : List Nat :=
  u16 (encodeServerNames names).length ++ encodeServerNames names

/-- The fields of a ClientHello. -/
structure ClientHello where
  version : List Nat
  random : List Nat
  sessionID : List Nat
  cipherSuites : List Nat
  compressionMethods : List Nat
  extensions : List Extension
  deriving DecidableEq, Repr

/-- The ClientHello from the extensions length on. -/
def ClientHello.fromExtensions (ch : ClientHello) : List Nat :=
  u16 (encodeExtensions ch.extensions).length ++ encodeExtensions ch.extensions

/-- The ClientHello from the compression methods length on. -/
def ClientHello.fromCompression (ch : ClientHello) : List Nat :=
  [ch.compressionMethods.length] ++ (ch.compressionMethods ++ ch.fromExtensions)

/-- The ClientHello from the cipher suites length on. -/
def ClientHello.fromCipherSuites (ch : ClientHello) : List Nat :=
  u16 ch.cipherSuites.length ++ (ch.cipherSuites ++ ch.fromCompression)

/-- The ClientHello from the session id length on. -/
def ClientHello.tail (ch : ClientHello) : List Nat :=
  [ch.sessionID.length] ++ (ch.sessionID ++ ch.fromCipherSuites)

/-- The body of the ClientHello handshake message. -/
def ClientHello.body (ch : ClientHello) : List Nat := ch.version ++ (ch.random ++ ch.tail)

/-- The handshake message: type 1, 3-byte length, body. -/
def ClientHello.handshake (ch : ClientHello) : List Nat :=
  [1] ++ u24 ch.body.length ++ ch.body

/-- The TLS record: type 0x16, version 0x03 0x01, 2-byte length, message. -/
def ClientHello.record (ch : ClientHello) : List Nat :=
  [0x16, 0x03, 0x01] ++ u16 ch.handshake.length ++ ch.handshake

/-- The field sizes of a ClientHello that fits one record. -/
def ClientHello.WellFormed (ch : ClientHello) : Prop :=
  ch.version.length = 2 ∧ ch.random.length = 32 ∧ ch.sessionID.length < 256 ∧
  ch.cipherSuites.length < 65536 ∧ ch.compressionMethods.length < 256 ∧
  (∀ e ∈ ch.extensions, e.type < 65536 ∧ e.data.length < 65536) ∧
  ch.handshake.length < 65536

/-- The bytes a slice shows are `bs`, and its window lies in its array. -/
def Slice.View (s : Slice) (bs : List Nat) : Prop :=
  s.lo ≤ s.hi ∧ s.hi ≤ s.arr.length ∧ (s.arr.drop s.lo).take (s.hi - s.lo) = bs

/-- A ClientHello whose `server_name` extension lists the host name `a` and
then a name `b` of type 1, after a `supported_groups` extension. -/
def helloTwoNames : ClientHello :=
  { version := [3, 3], random := List.replicate 32 0, sessionID := [],
    cipherSuites := [0x13, 0x01], compressionMethods := [0],
    extensions := [⟨0x0a, [0, 2, 0, 0x1d]⟩, ⟨0, serverNameData [⟨0, [97]⟩, ⟨1, [98]⟩]⟩] }

/-- A ClientHello whose `server_name` extension lists the one host name
`a.b`, between two other extensions. -/
def helloOneName : ClientHello :=
  { version := [3, 3], random := List.replicate 32 0, sessionID := [],
    cipherSuites := [0x13, 0x01], compressionMethods := [0],
    extensions := [⟨0x0a, [0, 2, 0, 0x1d]⟩, ⟨0, serverNameData [⟨0, [97, 46, 98]⟩]⟩,
                   ⟨0x0b, [1, 0]⟩] }

/-- A ClientHello without `server_name` extension: its only extension is
`supported_groups`. -/
def helloNoServerName : ClientHello :=
  { version := [3, 3], random := List.replicate 32 0, sessionID := [],
    cipherSuites := [0x13, 0x01], compressionMethods := [0],
    extensions := [⟨0x0a, [0, 2, 0, 0x1d]⟩] }

/-- An accepted record header that declares an empty record, followed by four
more bytes of the stream. -/
def emptyRecordStream : List Nat := [0x16, 0x03, 0x01, 0, 0, 0x16, 0x03, 0x01, 0]

/-- The loop variable of `GetNextOpen` after a number of doublings. -/
def startAfter : Nat → Int
  | 0 => 5
  | k + 1 => wrap64 (startAfter k * 2)

/-! ## server.go: PublicServerHandler

A Go string is the list of its bytes; the byte of `.` is 46. -/

/-- Function `strings.Split(s, sep)` for a separator of one byte: the pieces of
`s` between the occurrences of the separator, at least one piece. -/
def stringsSplit (sep : Nat) : List Nat → List (List Nat)
  | [] => [[]]
  | c :: cs =>
    if c = sep then [] :: stringsSplit sep cs
    else
      match stringsSplit sep cs with
      | [] => [[c]]
      | piece :: pieces => (c :: piece) :: pieces

/-- Lines 85 to 91 of `PublicServerHandler`: the subdomain used for the session
lookup, `none` when the handler returns on `len(sniNameSplit) < 1`. -/
def routeSubdomain (sniName : List Nat) : Option (List Nat) :=
  let sniNameSplit := stringsSplit 46 sniName
  if sniNameSplit.length < 1 then none else sniNameSplit[0]?

/-- The bytes of a string literal. -/
def bytesOf (s : String) : List Nat := s.toList.map Char.toNat

/-- What one pass through the `select` at `retry:` observes: the deadline
context is done, or (the `default` branch) the result of `GetConn`. -/
inductive Tick where
  | ctxDone
  | getConn (r : Except PoolError Conn)

/-- The calls the acquire loop makes. -/
inductive LoopCall where
  | getConn
  | openMoreConns
  | sleep
  deriving DecidableEq, Repr

/-- How the acquire loop stands after the observations given to it. -/
inductive Acquire where
  | deadline
  | failed (e : PoolError)
  | acquired (c : Conn)
  | retrying
  deriving DecidableEq, Repr

/-- Lines 110 to 133 of `PublicServerHandler`: the acquire loop on the
observations of its passes, from the flag `calledOpened` and the calls made
so far. -/
def acquireLoop : List Tick → Bool → List LoopCall → Acquire × List LoopCall
  | [], _, calls => (.retrying, calls)
  | .ctxDone :: _, _, calls => (.deadline, calls)
  | .getConn (.ok c) :: _, _, calls => (.acquired c, calls ++ [.getConn])
  | .getConn (.error e) :: ticks, calledOpened, calls =>
    if e ≠ .PoolEmptyError then (.failed e, calls ++ [.getConn])
    else if !calledOpened then
      acquireLoop ticks true (calls ++ [.getConn, .openMoreConns, .sleep])
    else acquireLoop ticks calledOpened (calls ++ [.getConn, .sleep])

/-- The acquire loop of one visitor: `calledOpened` starts false. -/
def acquire (ticks : List Tick) : Acquire × List LoopCall := acquireLoop ticks false []

/-! ## server_utils.go and actions.go: tokens and handlers

A Go string is kept as the Lean string whose characters are its bytes. The
handlers read the bytes the client sends on the connection and the model
returns the bytes they write; writes on the connection are taken to succeed. -/

/-- Go `string(b)` for a byte slice. -/
def goString (b : List Nat) : String := String.mk (b.map Char.ofNat)

/-- Struct `TokenStore`; the values, of type `interface{}`, are strings in
this program. -/
structure TokenStore where
  Tokens : GoMap String
  deriving DecidableEq, Repr

/-- Method `AddToken`. -/
def TokenStore.AddToken (t : TokenStore) (key value : String) : TokenStore :=
  { t with Tokens := t.Tokens.set key value }

/-- Method `GetToken`: `none` is the nil interface of a missing key. -/
def TokenStore.GetToken (t : TokenStore) (key : String) : Option String :=
  t.Tokens.get key

/-- Function `NewTokenStore`. -/
def NewTokenStore : TokenStore :=
  { Tokens := [("LN97ccrfGrZX4rtiATmdDKImbQnbMW8BYWBWVrnfQpw=", "--")] }

/-- The globals `MainConnectionPooler` and `MainTokenStore`. -/
structure Globals where
  pool : State
  tokens : TokenStore
  deriving DecidableEq, Repr

/-- Function `GenerateToken`: `randRead` is `rand.Read` on a buffer of the
given length (`none` when it fails), `encodeToString` is
`base64.URLEncoding.EncodeToString`; the second result tells `err != nil`. -/
def GenerateToken (encodeToString : List Nat → String) (randRead : Nat → Option (List Nat))
    (length : Nat) : String × Bool :=
  match randRead length with
  | none => ("", true)
  | some tokenBytes => (encodeToString tokenBytes, false)

/-- Function `HandleLoginAction`: the bytes written on the connection. -/
def HandleLoginAction (g : Globals) (reader : List Nat) : List Nat :=
  match ReadUint32 reader with
  | .error _ => []
  | .ok (tokenLength, reader) =>
    match ReadIntoBuffer reader tokenLength with
    | .error _ => []
    | .ok (tokenBuf, _) =>
      let isTokenValid := (g.tokens.GetToken (goString tokenBuf)).isSome
      WriteBool isTokenValid

/-- Function `HandleRegisterAction`: the globals afterwards and the bytes
written on the connection. -/
def HandleRegisterAction (encodeToString : List Nat → String)
    (randRead : Nat → Option (List Nat)) (g : Globals) : Globals × List Nat :=
  let r := GenerateToken encodeToString randRead 32
  let token := r.1
  let g := { g with tokens := g.tokens.AddToken token "" }
  if r.2 then (g, [])
  else (g, WriteUint32 (token.length % 2 ^ 32) ++ WriteBuffer (bytesOf token))

/-- Function `HandleTunnelServer` on the connection `conn` that delivers the
bytes `reader` and then ends: the globals when the handler returns and the
bytes it wrote. After `WriteBool(true)` the handler reads the connection
byte by byte until it ends; the deferred `RemoveSession` runs on every return
after line 151. `none` is a panic. -/
def HandleTunnelServer (g : Globals) (conn : Sock) (reader : List Nat) :
    Option (Globals × List Nat) :=
  match ReadUint32 reader with
  | .error _ => some (g, [])
  | .ok (tokenLength, reader) =>
    match ReadIntoBuffer reader tokenLength with
    | .error _ => some (g, [])
    | .ok (tokenBuf, reader) =>
      let isTokenValid := (g.tokens.GetToken (goString tokenBuf)).isSome
      if !isTokenValid then some (g, [])
      else
        match ReadUint32 reader with
        | .error _ => some (g, [])
        | .ok (sessionIDLength, reader) =>
          match ReadIntoBuffer reader sessionIDLength with
          | .error _ => some (g, [])
          | .ok (sessionBuf, reader) =>
            let sessionStr := goString sessionBuf
            match ReadUint32 reader with
            | .error _ => some (g, [])
            | .ok (subdomainLength, reader) =>
              match ReadIntoBuffer reader subdomainLength with
              | .error _ => some (g, [])
              | .ok (subdomainBuf, _) =>
                let subdomainStr := goString subdomainBuf
                let added := AddSession g.pool sessionStr subdomainStr conn
                let written :=
                  match added.1 with
                  | .error _ => []
                  | .ok _ => WriteBool true
                (RemoveSession added.2 sessionStr).map
                  (fun r => ({ g with pool := r.2 }, written))

/-- A length-prefixed field as the client writes it: `WriteUint32(len)` and
`WriteBuffer`. -/
def lengthPrefixed (s : String) : List Nat :=
  WriteUint32 (bytesOf s).length ++ WriteBuffer (bytesOf s)

/-- The body of a Tunnel request, as `Client.Tunnel` writes it after the
action. -/
def tunnelRequest (token sessionID subdomain : String) : List Nat :=
  lengthPrefixed token ++ lengthPrefixed sessionID ++ lengthPrefixed subdomain

/-- The server with the live session `S0`/`alpha` and the fixed token. -/
def liveAlpha : Globals :=
  { pool := (AddSession State.init "S0" "alpha" 1).2, tokens := NewTokenStore }

/-- A fresh server: no session, the fixed token. -/
def freshServer : Globals := { pool := State.init, tokens := NewTokenStore }

/-- `PutConn` called for each worker of a list in turn: the errors returned
and the state afterwards. -/
def PutConnAll : List Conn → State → String → Option (List (Option PoolError) × State)
  | [], w, _ => some ([], w)
  | c :: cs, w, sessionID =>
    match PutConn w sessionID c with
    | none => none
    | some (e, w1) => (PutConnAll cs w1 sessionID).map (fun r => (e :: r.1, r.2))

/-- `GetConn` called a number of times in succession: the results and the
state afterwards. -/
def GetConnTimes : Nat → State → String → Option (List (Except PoolError Conn) × State)
  | 0, w, _ => some ([], w)
  | n + 1, w, sessionID =>
    match GetConn w sessionID with
    | none => none
    | some (r, w1) => (GetConnTimes n w1 sessionID).map (fun rs => (r :: rs.1, rs.2))

/-- Two workers of the session `S0`. -/
def workerA : Conn := { SessionID := "S0", Conn := 11, StartTime := 0, Done := 0 }

/-- The second worker. -/
def workerB : Conn := { SessionID := "S0", Conn := 12, StartTime := 1, Done := 1 }

/-! ## client_utils.go: ReqResQueue

The parsed requests and responses are values of any two types; `printed` is
the list of the pairs given to `logRequestResponse`, in the order of the
calls. -/

/-- Struct `ReqResQueue` (without mutex and logger), with the pairs printed so
far. -/
structure ReqResQueue (Req Resp : Type) where
  Requests : List Req
  Responses : List Resp
  printed : List (Req × Resp)

/-- Function `NewReqResQueue`. -/
def NewReqResQueue (Req Resp : Type) : ReqResQueue Req Resp :=
  { Requests := [], Responses := [], printed := [] }

/-- Method `LogResponse`: `none` is the panic of `Requests[0]` or `Responses[0]`
on an empty slice. -/
def ReqResQueue.LogResponse {Req Resp : Type} (rrq : ReqResQueue Req Resp) :
    Option (ReqResQueue Req Resp) :=
  match rrq.Requests, rrq.Responses with
  | req :: reqs, resp :: resps =>
    some { Requests := reqs, Responses := resps, printed := rrq.printed ++ [(req, resp)] }
  | _, _ => none

/-- Method `AddRequest`. -/
def ReqResQueue.AddRequest {Req Resp : Type} (rrq : ReqResQueue Req Resp) (req : Req) :
    Option (ReqResQueue Req Resp) :=
  let rrq := { rrq with Requests := rrq.Requests ++ [req] }
  if rrq.Requests.length > 0 ∧ rrq.Responses.length > 0 then rrq.LogResponse else some rrq

/-- Method `AddResponse`. -/
def ReqResQueue.AddResponse {Req Resp : Type} (rrq : ReqResQueue Req Resp) (resp : Resp) :
    Option (ReqResQueue Req Resp) :=
  let rrq := { rrq with Responses := rrq.Responses ++ [resp] }
  if rrq.Requests.length > 0 ∧ rrq.Responses.length > 0 then rrq.LogResponse else some rrq

/-- A call on the queue. -/
inductive QueueCall (Req Resp : Type) where
  | addRequest (req : Req)
  | addResponse (resp : Resp)

/-- The queue after a sequence of calls, in their order. -/
def ReqResQueue.run {Req Resp : Type} :
    List (QueueCall Req Resp) → ReqResQueue Req Resp → Option (ReqResQueue Req Resp)
  | [], rrq => some rrq
  | .addRequest req :: calls, rrq => (rrq.AddRequest req).bind (ReqResQueue.run calls)
  | .addResponse resp :: calls, rrq => (rrq.AddResponse resp).bind (ReqResQueue.run calls)

/-- The requests added by a sequence of calls, in their order. -/
def requestsOf {Req Resp : Type} : List (QueueCall Req Resp) → List Req
  | [] => []
  | .addRequest req :: calls => req :: requestsOf calls
  | .addResponse _ :: calls => requestsOf calls

/-- The responses added by a sequence of calls, in their order. -/
def responsesOf {Req Resp : Type} : List (QueueCall Req Resp) → List Resp
  | [] => []
  | .addRequest _ :: calls => responsesOf calls
  | .addResponse resp :: calls => resp :: responsesOf calls

/-- `OpenMoreConns` called `k` times in succession on the same session. -/
def OpenMoreConnsTimes : Nat → State → Ptr → Option State
  | 0, w, _ => some w
  | k + 1, w, session => (OpenMoreConns w session).bind (fun w' => OpenMoreConnsTimes k w' session)

/-- The pooler operations that act on sessions after their creation. -/
inductive PoolOp where
  | OpenMoreConns (session : Ptr)
  | PutConn (sessionID : String) (c : Conn)
  | GetConn (sessionID : String)
  | Prune (now : Int)
  deriving DecidableEq, Repr

/-- The state after one pooler operation (`none` when it panics). -/
def PoolOp.apply (w : State) : PoolOp → Option State
  | .OpenMoreConns session => Harlot.OpenMoreConns w session
  | .PutConn sessionID c => (Harlot.PutConn w sessionID c).map (fun r => r.2)
  | .GetConn sessionID => (Harlot.GetConn w sessionID).map (fun r => r.2)
  | .Prune now => Harlot.Prune now w

/-- The test of `Prune` under which a worker is put back on the queue. -/
def fresh (IdleTimeout now : Int) (c : Conn) : Bool := decide (now - c.StartTime < IdleTimeout)

/-- A session as `Prune` leaves it: the fresh workers in their order, and
`NextOpen` recomputed from their number. -/
def pruned (IdleTimeout now : Int) (s : Session) : Session :=
  { s with
    Connections := s.Connections.filter (fresh IdleTimeout now)
    NextOpen := GetNextOpen ((s.Connections.filter (fresh IdleTimeout now)).length) }

/-- The sockets of the workers of a queue that are not fresh. -/
def expiredSocks (IdleTimeout now : Int) (q : List Conn) : List Sock :=
  (q.filter (fun c => !fresh IdleTimeout now c)).map (fun c => c.Conn)

/-- The session `S0`/`alpha` on a fresh pooler after one `OpenMoreConns`. -/
def afterOneOpenMore : Option State :=
  OpenMoreConns (AddSession State.init "S0" "alpha" 1).2 0

/-- The session at address `p`, first `s0`, has been pruned: the heap `h` holds
`pruned s0` there and the sockets of the workers of `s0` that are not fresh
are among the closed sockets `c`. -/
def PrunedAt (IdleTimeout now : Int) (h : List Session) (c : List Sock) (p : Ptr)
    (s0 : Session) : Prop :=
  h[p]? = some (pruned IdleTimeout now s0) ∧
    ∀ x ∈ s0.Connections, fresh IdleTimeout now x = false → x.Conn ∈ c

/-- Every pointer stored in `Sessions` is allocated (Go pointers do not dangle
and the pooler never stores nil). -/
def State.SessionsAllocated (w : State) : Prop :=
  ∀ e ∈ w.cp.Sessions, e.2 < w.heap.length

/-! ## Lemmas on Go maps -/

theorem GoMap.get_delete_self {V : Type} (m : GoMap V) (k : String) :
    (GoMap.delete m k).get k = none := by
  induction m with
  | nil => rfl
  | cons e m ih =>
    obtain ⟨k', v⟩ := e
    by_cases h : k' = k
    · simp [GoMap.delete, h, ih]
    · simp [GoMap.delete, GoMap.get, h, ih]

theorem GoMap.get_delete_ne {V : Type} (m : GoMap V) (k k2 : String) (h : k ≠ k2) :
    (GoMap.delete m k).get k2 = m.get k2 := by
  induction m with
  | nil => rfl
  | cons e m ih =>
    obtain ⟨k', v⟩ := e
    by_cases h1 : k' = k
    · subst h1
      simp [GoMap.delete, GoMap.get, h, ih]
    · by_cases h2 : k' = k2
      · subst h2
        simp [GoMap.delete, GoMap.get, h1]
      · simp [GoMap.delete, GoMap.get, h1, h2, ih]

theorem GoMap.get_set_self {V : Type} (m : GoMap V) (k : String) (v : V) :
    (GoMap.set m k v).get k = some v := by
  simp [GoMap.set, GoMap.get]

theorem GoMap.get_set_ne {V : Type} (m : GoMap V) (k k2 : String) (v : V) (h : k ≠ k2) :
    (GoMap.set m k v).get k2 = m.get k2 := by
  simp [GoMap.set, GoMap.get, h, GoMap.get_delete_ne m k k2 h]

theorem GoMap.has_eq_false {V : Type} (m : GoMap V) (k : String) :
    m.has k = false ↔ m.get k = none := by
  simp [GoMap.has]

theorem GoMap.mem_of_get {V : Type} (m : GoMap V) (k : String) (v : V)
    (h : m.get k = some v) : (k, v) ∈ m := by
  induction m with
  | nil => cases h
  | cons e m ih =>
    obtain ⟨k', v'⟩ := e
    by_cases hk : k' = k
    · subst hk
      simp only [GoMap.get, if_true] at h
      rw [Option.some.inj h]
      exact List.mem_cons_self _ _
    · simp only [GoMap.get, hk, if_false] at h
      exact List.mem_cons_of_mem _ (ih h)

/-! ## Session indexes -/

theorem RemoveSession_present (w : State) (id : String) (p : Ptr) (s : Session)
    (hid : w.cp.Sessions.get id = some p) (hp : w.deref p = some s) :
    RemoveSession w id = some (none,
      { w with
        cp := { w.cp with
                Sessions := w.cp.Sessions.delete id
                SubdomainToSession := w.cp.SubdomainToSession.delete s.Subdomain } }) := by
  simp [RemoveSession, IsSessionInPool, GoMap.has, hid, hp]

theorem RemoveSession_absent (w : State) (id : String) (hid : w.cp.Sessions.get id = none) :
    RemoveSession w id = some (some .SessionNotFoundError, w) := by
  simp [RemoveSession, IsSessionInPool, GoMap.has, hid]

/-- C1, at the failing input: after `AddSession("S0", "alpha", _)` and
`AddSession("S0", "beta", _)`, a state reachable from `NewConnectionPooler()`, the
first session (address 0) is still the value of `SubdomainToSession["alpha"]`
while `Sessions["S0"]` is the second session (address 1): the two indexes
disagree. -/
theorem C1_duplicate_session_id_indexes_disagree :
    Reachable twoTunnelsOneID ∧
    twoTunnelsOneID.deref 0 =
      some { SessionID := "S0", Subdomain := "alpha", TunnelConn := 1,
             Connections := [], NextOpen := 5 } ∧
    twoTunnelsOneID.cp.SubdomainToSession.get "alpha" = some 0 ∧
    twoTunnelsOneID.cp.Sessions.get "S0" = some 1 ∧
    ¬ IndexesAgree twoTunnelsOneID := by
  refine ⟨?_, by decide, by decide, by decide, ?_⟩
  · exact Reachable.add _ "S0" "beta" 2 (Reachable.add _ "S0" "alpha" 1 Reachable.init)
  · intro h
    have h0 := h 0 _ (by decide : twoTunnelsOneID.deref 0 =
      some { SessionID := "S0", Subdomain := "alpha", TunnelConn := 1,
             Connections := [], NextOpen := 5 })
    have h1 : twoTunnelsOneID.cp.Sessions.get "S0" = some 0 := h0.mpr (by decide)
    revert h1
    decide

/-- C2, counterexample: `RemoveSession("S0")` on a session with one idle worker
returns without error, and afterwards the worker is still in the session's
queue and no socket has been closed. -/
theorem C2_remove_leaves_queue_counterexample :
    oneIdleWorker.cp.Sessions.get "S0" = some 0 ∧
    ∃ w', RemoveSession oneIdleWorker "S0" = some (none, w') ∧
      (w'.deref 0).map (fun s => s.Connections) = some [idleWorker] ∧
      w'.closed = [] := by
  refine ⟨by decide, _, rfl, by decide, by decide⟩

/-- C2, amended: when `Sessions[id]` is a session, `RemoveSession(id)` returns
without error, deletes `Sessions[id]` and `SubdomainToSession[its subdomain]`,
and leaves every session record (so also the removed session's idle queue)
and the set of closed sockets exactly as they were. -/
theorem C2_remove_deletes_entries_only (w : State) (id : String) (p : Ptr) (s : Session)
    (hid : w.cp.Sessions.get id = some p) (hp : w.deref p = some s) :
    ∃ w', RemoveSession w id = some (none, w') ∧
      w'.cp.Sessions.get id = none ∧ w'.cp.SubdomainToSession.get s.Subdomain = none ∧
      w'.heap = w.heap ∧ w'.deref p = some s ∧ w'.closed = w.closed ∧ w'.sent = w.sent := by
  refine ⟨_, RemoveSession_present w id p s hid hp, ?_⟩
  exact ⟨GoMap.get_delete_self _ _, GoMap.get_delete_self _ _, rfl, hp, rfl, rfl⟩

/-- Witness of `C2_remove_deletes_entries_only` on the session with one idle
worker. -/
theorem C2_remove_deletes_entries_only_witness :
    ∃ w', RemoveSession oneIdleWorker "S0" = some (none, w') ∧
      w'.cp.Sessions.get "S0" = none ∧ w'.cp.SubdomainToSession.get "alpha" = none ∧
      w'.heap = oneIdleWorker.heap ∧
      w'.deref 0 = some sessionWithWorker ∧
      w'.closed = oneIdleWorker.closed ∧ w'.sent = oneIdleWorker.sent :=
  C2_remove_deletes_entries_only oneIdleWorker "S0" 0 sessionWithWorker (by decide) (by decide)

theorem AddSession_taken (w : State) (id sub : String) (tunnel : Sock)
    (h : w.cp.SubdomainToSession.has sub = true) :
    AddSession w id sub tunnel = (.error .SubdomainAlreadyExistsError, w) := by
  simp [AddSession, h]

theorem AddSession_free (w : State) (id sub : String) (tunnel : Sock)
    (h : w.cp.SubdomainToSession.has sub = false) :
    AddSession w id sub tunnel =
      (.ok w.heap.length,
       { w with
         heap := w.heap ++ [{ SessionID := id, Subdomain := sub, TunnelConn := tunnel,
                              NextOpen := 5, Connections := [] }]
         cp := { w.cp with
                 SubdomainToSession := w.cp.SubdomainToSession.set sub w.heap.length
                 Sessions := w.cp.Sessions.set id w.heap.length } }) := by
  simp [AddSession, h]

theorem AddSession_free_spec (w : State) (id sub : String) (tunnel : Sock) :
    w.cp.SubdomainToSession.has sub = false →
      ∃ p, (AddSession w id sub tunnel).1 = .ok p ∧
        w.deref p = none ∧
        (AddSession w id sub tunnel).2.deref p =
          some { SessionID := id, Subdomain := sub, TunnelConn := tunnel,
                 Connections := [], NextOpen := 5 } ∧
        HasSession (AddSession w id sub tunnel).2 id = true ∧
        HasSubdomain (AddSession w id sub tunnel).2 sub = true ∧
        GetSession (AddSession w id sub tunnel).2 sub = .ok (some p) := by
  intro h
  rw [AddSession_free w id sub tunnel h]
  refine ⟨w.heap.length, rfl, ?_, ?_, ?_, ?_, ?_⟩
  · simp [State.deref]
  · simp [State.deref]
  · simp [HasSession, IsSessionInPool, GoMap.has, GoMap.get_set_self]
  · simp [HasSubdomain, IsSubdomainInPool, GoMap.has, GoMap.get_set_self]
  · simp [GetSession, HasSubdomain, IsSubdomainInPool, GoMap.has, GoMap.get_set_self]

/-- C3: `AddSession(id, sub, tunnel)` returns `SubdomainAlreadyExistsError`
exactly when `sub` is a key of `SubdomainToSession`, and then the state (both
indexes included) is unchanged; otherwise it returns a pointer to a newly
allocated session with that id, subdomain and tunnel, `NextOpen = 5` and an
empty queue, and afterwards `HasSession(id)` and `HasSubdomain(sub)` are true
and `GetSession(sub)` returns that pointer. -/
theorem C3_AddSession_contract (w : State) (id sub : String) (tunnel : Sock) :
    ((AddSession w id sub tunnel).1 = .error .SubdomainAlreadyExistsError ↔
      w.cp.SubdomainToSession.has sub = true) ∧
    (w.cp.SubdomainToSession.has sub = true →
      (AddSession w id sub tunnel).2 = w) ∧
    (w.cp.SubdomainToSession.has sub = false →
      ∃ p, (AddSession w id sub tunnel).1 = .ok p ∧
        w.deref p = none ∧
        (AddSession w id sub tunnel).2.deref p =
          some { SessionID := id, Subdomain := sub, TunnelConn := tunnel,
                 Connections := [], NextOpen := 5 } ∧
        HasSession (AddSession w id sub tunnel).2 id = true ∧
        HasSubdomain (AddSession w id sub tunnel).2 sub = true ∧
        GetSession (AddSession w id sub tunnel).2 sub = .ok (some p)) := by
  refine ⟨?_, ?_, ?_⟩
  · constructor
    · intro h
      by_contra hn
      have hf : w.cp.SubdomainToSession.has sub = false := by simpa using hn
      rw [AddSession_free w id sub tunnel hf] at h
      cases h
    · intro h
      rw [AddSession_taken w id sub tunnel h]
  · intro h
    rw [AddSession_taken w id sub tunnel h]
  · exact AddSession_free_spec w id sub tunnel

/-- Witness of `C3_AddSession_contract`: the first tunnel `S0`/`alpha` on a
fresh pooler. -/
theorem C3_AddSession_contract_witness :
    ∃ p, (AddSession State.init "S0" "alpha" 1).1 = .ok p ∧
      State.init.deref p = none ∧
      (AddSession State.init "S0" "alpha" 1).2.deref p =
        some { SessionID := "S0", Subdomain := "alpha", TunnelConn := 1,
               Connections := [], NextOpen := 5 } ∧
      HasSession (AddSession State.init "S0" "alpha" 1).2 "S0" = true ∧
      HasSubdomain (AddSession State.init "S0" "alpha" 1).2 "alpha" = true ∧
      GetSession (AddSession State.init "S0" "alpha" 1).2 "alpha" = .ok (some p) :=
  (C3_AddSession_contract State.init "S0" "alpha" 1).2.2 (by decide)

/-- C4: when `Sessions[id]` is a session with subdomain `sub`,
`RemoveSession(id)` returns without error and afterwards `HasSession(id)` and
`HasSubdomain(sub)` are false, so `AddSession(id2, sub, _)` then succeeds for
every `id2`; when `id` is not a key of `Sessions`, `RemoveSession(id)` returns
`SessionNotFoundError` and the state is unchanged. -/
theorem C4_remove_frees_subdomain (w : State) (id : String) :
    (∀ p s, w.cp.Sessions.get id = some p → w.deref p = some s →
      ∃ w', RemoveSession w id = some (none, w') ∧
        HasSession w' id = false ∧ HasSubdomain w' s.Subdomain = false ∧
        ∀ (id2 : String) (tunnel : Sock), ∃ p2,
          (AddSession w' id2 s.Subdomain tunnel).1 = .ok p2 ∧
          GetSession (AddSession w' id2 s.Subdomain tunnel).2 s.Subdomain = .ok (some p2)) ∧
    (w.cp.Sessions.get id = none →
      RemoveSession w id = some (some .SessionNotFoundError, w)) := by
  refine ⟨?_, RemoveSession_absent w id⟩
  intro p s hid hp
  refine ⟨_, RemoveSession_present w id p s hid hp, ?_, ?_, ?_⟩
  · simp [HasSession, IsSessionInPool, GoMap.has, GoMap.get_delete_self]
  · simp [HasSubdomain, IsSubdomainInPool, GoMap.has, GoMap.get_delete_self]
  · intro id2 tunnel
    have hfree : ({ w with
        cp := { w.cp with
                Sessions := w.cp.Sessions.delete id
                SubdomainToSession := w.cp.SubdomainToSession.delete s.Subdomain } }
        : State).cp.SubdomainToSession.has s.Subdomain = false := by
      simp [GoMap.has, GoMap.get_delete_self]
    obtain ⟨p2, h1, -, -, -, -, h2⟩ := (AddSession_free_spec _ id2 s.Subdomain tunnel) hfree
    exact ⟨p2, h1, h2⟩

/-- Witness of `C4_remove_frees_subdomain`: `S0`/`alpha` is removed and `alpha`
is claimed again by `S1`. -/
theorem C4_remove_frees_subdomain_witness :
    ∃ w', RemoveSession oneIdleWorker "S0" = some (none, w') ∧
      HasSession w' "S0" = false ∧ HasSubdomain w' "alpha" = false ∧
      ∀ (id2 : String) (tunnel : Sock), ∃ p2,
        (AddSession w' id2 "alpha" tunnel).1 = .ok p2 ∧
        GetSession (AddSession w' id2 "alpha" tunnel).2 "alpha" = .ok (some p2) :=
  (C4_remove_frees_subdomain oneIdleWorker "S0").1 0 sessionWithWorker (by decide) (by decide)

/-! ## The growth schedule -/

theorem schedule_lt (j : Nat) (hj : j ≤ 60) : (5 : Int) * 2 ^ j < 2 ^ 63 := by
  have h : (2 : Int) ^ j ≤ 2 ^ 60 := pow_le_pow_right₀ (by norm_num) hj
  have : (2 : Int) ^ 63 = 8 * 2 ^ 60 := by norm_num
  omega

theorem schedule_pos (j : Nat) : (0 : Int) < 5 * 2 ^ j := by positivity

theorem schedule_mono {i j : Nat} (h : i ≤ j) : (5 : Int) * 2 ^ i ≤ 5 * 2 ^ j := by
  have : (2 : Int) ^ i ≤ 2 ^ j := pow_le_pow_right₀ (by norm_num) h
  omega

theorem wrap64_id (x : Int) (h0 : 0 ≤ x) (h1 : x < 2 ^ 63) : wrap64 x = x := by
  unfold wrap64
  norm_num at h1 ⊢
  omega

/-- The loop started at `5 * 2 ^ j` returns the first schedule value above
`length`, when that value is at most `5 * 2 ^ 60`. -/
theorem GetNextOpenLoop_hit (length : Int) :
    ∀ (n j fuel : Nat), j + n ≤ 60 →
      (∀ i, j ≤ i → i < j + n → (5 : Int) * 2 ^ i ≤ length) →
      length < 5 * 2 ^ (j + n) → n < fuel →
      GetNextOpenLoop fuel (5 * 2 ^ j) length = some (5 * 2 ^ (j + n)) := by
  intro n
  induction n with
  | zero =>
    intro j fuel _ _ hlt hf
    obtain ⟨f, rfl⟩ : ∃ f, fuel = f + 1 := ⟨fuel - 1, by omega⟩
    have hpos := schedule_pos j
    simp only [Nat.add_zero] at hlt ⊢
    rw [GetNextOpenLoop, if_neg (by omega), if_pos (by omega)]
  | succ n ih =>
    intro j fuel hj hle hlt hf
    obtain ⟨f, rfl⟩ : ∃ f, fuel = f + 1 := ⟨fuel - 1, by omega⟩
    have hpos := schedule_pos j
    have hj0 := hle j (le_refl j) (by omega)
    have hnext : wrap64 (5 * 2 ^ j * 2) = 5 * 2 ^ (j + 1) := by
      have e : (5 : Int) * 2 ^ j * 2 = 5 * 2 ^ (j + 1) := by ring
      rw [e]
      exact wrap64_id _ (le_of_lt (schedule_pos _)) (schedule_lt _ (by omega))
    rw [GetNextOpenLoop, if_neg (by omega), if_neg (by omega), hnext]
    have := ih (j + 1) f (by omega) (fun i h1 h2 => hle i (by omega) (by omega))
      (by rw [show j + 1 + n = j + (n + 1) by omega]; exact hlt) (by omega)
    rw [this, show j + 1 + n = j + (n + 1) by omega]

/-- Below `5 * 2 ^ 60` the loop, with any fuel of 61 rounds or more, returns
the least schedule value strictly above its argument. -/
theorem GetNextOpenLoop_least (length : Int) (h : length < 5 * 2 ^ 60) :
    ∃ j, j ≤ 60 ∧ length < 5 * 2 ^ j ∧ (∀ i, length < 5 * 2 ^ i → j ≤ i) ∧
      ∀ fuel, 61 ≤ fuel → GetNextOpenLoop fuel 5 length = some (5 * 2 ^ j) := by
  classical
  have hex : ∃ i : Nat, length < 5 * 2 ^ i := ⟨60, h⟩
  refine ⟨Nat.find hex, Nat.find_min' hex h, Nat.find_spec hex,
    fun i hi => Nat.find_min' hex hi, ?_⟩
  intro fuel hfuel
  have hj : Nat.find hex ≤ 60 := Nat.find_min' hex h
  have := GetNextOpenLoop_hit length (Nat.find hex) 0 fuel (by omega)
    (fun i _ hi => by
      have := Nat.find_min hex (show i < Nat.find hex by omega)
      omega)
    (by simpa using Nat.find_spec hex) (by omega)
  simpa using this

theorem GetNextOpen_least (length : Int) (h : length < 5 * 2 ^ 60) :
    ∃ j, j ≤ 60 ∧ GetNextOpen length = 5 * 2 ^ j ∧ length < 5 * 2 ^ j ∧
      ∀ i, length < 5 * 2 ^ i → j ≤ i := by
  obtain ⟨j, hj, hlt, hmin, hloop⟩ := GetNextOpenLoop_least length h
  exact ⟨j, hj, by simp [GetNextOpen, hloop 65 (by norm_num)], hlt, hmin⟩

theorem GetNextOpen_gt (length : Int) (h : length < 5 * 2 ^ 60) :
    length < GetNextOpen length := by
  obtain ⟨j, -, he, hlt, -⟩ := GetNextOpen_least length h
  rw [he]
  exact hlt

theorem GetNextOpen_schedule (k : Nat) (hk : k < 60) :
    GetNextOpen (5 * 2 ^ k) = 5 * 2 ^ (k + 1) := by
  have hlt : (5 : Int) * 2 ^ k < 5 * 2 ^ (k + 1) := by
    have := schedule_pos k
    rw [pow_succ]
    omega
  have := GetNextOpenLoop_hit (5 * 2 ^ k) (k + 1) 0 65 (by omega)
    (fun i _ hi => schedule_mono (by omega)) (by simpa using hlt) (by omega)
  simp only [pow_zero, mul_one, Nat.zero_add] at this
  simp [GetNextOpen, this]

theorem GetNextOpenLoop_miss (length : Int) :
    ∀ (n j fuel : Nat), j + n ≤ 60 →
      (∀ i, j ≤ i → i < j + n → (5 : Int) * 2 ^ i ≤ length) →
      GetNextOpenLoop (fuel + n) (5 * 2 ^ j) length =
        GetNextOpenLoop fuel (5 * 2 ^ (j + n)) length := by
  intro n
  induction n with
  | zero =>
    intro j fuel _ _
    rfl
  | succ n ih =>
    intro j fuel hj hle
    have hpos := schedule_pos j
    have hj0 := hle j (le_refl j) (by omega)
    have hnext : wrap64 (5 * 2 ^ j * 2) = 5 * 2 ^ (j + 1) := by
      have e : (5 : Int) * 2 ^ j * 2 = 5 * 2 ^ (j + 1) := by ring
      rw [e]
      exact wrap64_id _ (le_of_lt (schedule_pos _)) (schedule_lt _ (by omega))
    rw [show fuel + (n + 1) = (fuel + n) + 1 by omega, GetNextOpenLoop, if_neg (by omega),
      if_neg (by omega), hnext, ih (j + 1) fuel (by omega)
        (fun i h1 h2 => hle i (by omega) (by omega)),
      show j + 1 + n = j + (n + 1) by omega]

/-- From `5 * 2 ^ 60` on no value of the schedule is above the argument before
the loop variable wraps to 0: the loop ends with `newLimit = 5`. -/
theorem GetNextOpenLoop_wrap (length : Int) (h : 5 * 2 ^ 60 ≤ length) (fuel : Nat)
    (hfuel : 5 ≤ fuel) : GetNextOpenLoop fuel (5 * 2 ^ 60) length = some 5 := by
  obtain ⟨f, rfl⟩ : ∃ f, fuel = f + 5 := ⟨fuel - 5, by omega⟩
  have e1 : wrap64 (5 * 2 ^ 60 * 2) = -6917529027641081856 := by decide
  have e2 : wrap64 (-6917529027641081856 * 2) = 4611686018427387904 := by decide
  have e3 : wrap64 (4611686018427387904 * 2) = -9223372036854775808 := by decide
  have e4 : wrap64 (-9223372036854775808 * 2) = 0 := by decide
  have h' : (5764607523034234880 : Int) ≤ length := by norm_num at h; exact h
  rw [GetNextOpenLoop, if_neg (by norm_num), if_neg (by norm_num; omega), e1,
    GetNextOpenLoop, if_neg (by norm_num), if_neg (by omega), e2,
    GetNextOpenLoop, if_neg (by norm_num), if_neg (by omega), e3,
    GetNextOpenLoop, if_neg (by norm_num), if_neg (by omega), e4,
    GetNextOpenLoop, if_pos rfl]

/-- The loop of `GetNextOpen` ends within 65 rounds on every argument: any
fuel of 65 or more gives the value of `GetNextOpen`. -/
theorem GetNextOpenLoop_enough (length : Int) (fuel : Nat) (hfuel : 65 ≤ fuel) :
    GetNextOpenLoop fuel 5 length = some (GetNextOpen length) := by
  by_cases h : length < 5 * 2 ^ 60
  · obtain ⟨j, -, -, -, hloop⟩ := GetNextOpenLoop_least length h
    simp [GetNextOpen, hloop 65 (by norm_num), hloop fuel (by omega)]
  · have hge : (5 : Int) * 2 ^ 60 ≤ length := not_lt.mp h
    have hmiss : ∀ f, GetNextOpenLoop (f + 60) (5 * 2 ^ 0) length =
        GetNextOpenLoop f (5 * 2 ^ (0 + 60)) length := fun f =>
      GetNextOpenLoop_miss length 60 0 f (by omega)
        (fun i _ hi => le_trans (schedule_mono (by omega : i ≤ 60)) hge)
    simp only [pow_zero, mul_one, Nat.zero_add] at hmiss
    obtain ⟨f, rfl⟩ : ∃ f, fuel = f + 60 := ⟨fuel - 60, by omega⟩
    have h65 := hmiss 5
    rw [GetNextOpenLoop_wrap length hge 5 (le_refl _)] at h65
    rw [hmiss f, GetNextOpenLoop_wrap length hge f (by omega)]
    simp [GetNextOpen, h65]

/-! ## NextOpen under the pooler operations -/

theorem OpenMoreConns_deref (w : State) (p : Ptr) (s : Session) (h : w.deref p = some s) :
    ∃ w', OpenMoreConns w p = some w' ∧ w'.heap.length = w.heap.length ∧
      w'.deref p = some { s with NextOpen := GetNextOpen s.NextOpen } ∧
      ∀ q, q ≠ p → w'.deref q = w.deref q := by
  have hlt : p < w.heap.length := by
    simp only [State.deref] at h
    exact (List.getElem?_eq_some.mp h).1
  refine ⟨_, by simp [OpenMoreConns, h]; rfl, by simp, ?_, ?_⟩
  · simp [State.deref, List.getElem?_set_self hlt]
  · intro q hq
    simp [State.deref, List.getElem?_set_ne (Ne.symm hq)]

theorem OpenMoreConnsTimes_schedule (p : Ptr) :
    ∀ (k n : Nat) (w : State) (s : Session), w.deref p = some s → s.NextOpen = 5 * 2 ^ n →
      n + k ≤ 60 →
      ∃ wk sk, OpenMoreConnsTimes k w p = some wk ∧ wk.deref p = some sk ∧
        sk.NextOpen = 5 * 2 ^ (n + k) := by
  intro k
  induction k with
  | zero =>
    intro n w s hs hn _
    exact ⟨w, s, rfl, hs, by simpa using hn⟩
  | succ k ih =>
    intro n w s hs hn hk
    obtain ⟨w', hw', -, hd, -⟩ := OpenMoreConns_deref w p s hs
    have hstep : ({ s with NextOpen := GetNextOpen s.NextOpen } : Session).NextOpen
        = 5 * 2 ^ (n + 1) := by
      simp only [hn]
      exact GetNextOpen_schedule n (by omega)
    obtain ⟨wk, sk, h1, h2, h3⟩ := ih (n + 1) w' _ hd hstep (by omega)
    refine ⟨wk, sk, ?_, h2, ?_⟩
    · simp [OpenMoreConnsTimes, hw', h1]
    · rw [h3, show n + 1 + k = n + (k + 1) by omega]

/-- C5, counterexample: on a session just created by `AddSession`, 61
successive `OpenMoreConns` calls leave `NextOpen = 5`, which is not
`5 * 2 ^ 61`. -/
theorem C5_sixty_one_calls_counterexample :
    ((OpenMoreConnsTimes 61 (AddSession State.init "S0" "alpha" 1).2 0).bind
      (fun w => w.deref 0)).map (fun s => s.NextOpen) = some 5 ∧
    (5 : Int) ≠ 5 * 2 ^ 61 := by
  constructor
  · set_option maxRecDepth 1000000 in decide
  · norm_num

/-- C5, amended: for every `k ≤ 60`, a session created by `AddSession` on which
`OpenMoreConns` is then called `k` times in succession has
`NextOpen = 5 * 2 ^ k`. -/
theorem C5_NextOpen_after_k_calls (w : State) (id sub : String) (tunnel : Sock) (p : Ptr)
    (h : (AddSession w id sub tunnel).1 = .ok p) (k : Nat) (hk : k ≤ 60) :
    ∃ wk sk, OpenMoreConnsTimes k (AddSession w id sub tunnel).2 p = some wk ∧
      wk.deref p = some sk ∧ sk.NextOpen = 5 * 2 ^ k := by
  have hfree : w.cp.SubdomainToSession.has sub = false := by
    by_contra hn
    have ht : w.cp.SubdomainToSession.has sub = true := by simpa using hn
    rw [AddSession_taken w id sub tunnel ht] at h
    cases h
  rw [AddSession_free w id sub tunnel hfree] at h ⊢
  have hp : w.heap.length = p := by simpa using h
  subst hp
  have := OpenMoreConnsTimes_schedule w.heap.length k 0
    { w with
      heap := w.heap ++ [{ SessionID := id, Subdomain := sub, TunnelConn := tunnel,
                           NextOpen := 5, Connections := [] }]
      cp := { w.cp with
              SubdomainToSession := w.cp.SubdomainToSession.set sub w.heap.length
              Sessions := w.cp.Sessions.set id w.heap.length } }
    { SessionID := id, Subdomain := sub, TunnelConn := tunnel, NextOpen := 5,
      Connections := [] } (by simp [State.deref]) (by simp) (by omega)
  simpa using this

/-- Witness of `C5_NextOpen_after_k_calls`: three calls on the session
`S0`/`alpha` of a fresh pooler give `NextOpen = 40`. -/
theorem C5_NextOpen_after_k_calls_witness :
    ∃ wk sk, OpenMoreConnsTimes 3 (AddSession State.init "S0" "alpha" 1).2 0 = some wk ∧
      wk.deref 0 = some sk ∧ sk.NextOpen = 5 * 2 ^ 3 :=
  C5_NextOpen_after_k_calls State.init "S0" "alpha" 1 0 rfl 3 (by decide)

/-! ## Prune -/

theorem pruneLoop_spec (T now : Int) :
    ∀ (a b : List Conn) (closed : List Sock),
      pruneLoop T now a.length (a ++ b) closed =
        (b ++ a.filter (fresh T now), closed ++ expiredSocks T now a) := by
  intro a
  induction a with
  | nil =>
    intro b closed
    simp [pruneLoop, expiredSocks]
  | cons x a ih =>
    intro b closed
    by_cases hx : now - x.StartTime < T
    · have hf : fresh T now x = true := by simp [fresh, hx]
      have := ih (b ++ [x]) closed
      simp only [List.append_assoc] at this
      simp [pruneLoop, hx, this, hf, expiredSocks]
    · have hf : fresh T now x = false := by simp [fresh, hx]
      have := ih b (closed ++ [x.Conn])
      simp [pruneLoop, hx, this, hf, expiredSocks]

theorem pruneSession_eq (T now : Int) (s : Session) (closed : List Sock) :
    pruneSession T now s closed =
      (pruned T now s, closed ++ expiredSocks T now s.Connections) := by
  have := pruneLoop_spec T now s.Connections [] closed
  simp only [List.append_nil, List.nil_append] at this
  simp [pruneSession, pruned, this]

theorem pruned_idem (T now : Int) (s : Session) :
    pruned T now (pruned T now s) = pruned T now s := by
  simp [pruned, List.filter_filter]

theorem mem_expiredSocks (T now : Int) (q : List Conn) (x : Conn) (hx : x ∈ q)
    (hf : fresh T now x = false) : x.Conn ∈ expiredSocks T now q := by
  simp only [expiredSocks, List.mem_map, List.mem_filter]
  exact ⟨x, ⟨hx, by simp [hf]⟩, rfl⟩

theorem PrunedAt_step (T now : Int) (h : List Session) (c c2 : List Sock) (p q : Ptr)
    (s s0 : Session) (hq : q ≠ p) (hd : PrunedAt T now h c q s0) :
    PrunedAt T now (h.set p s) (c ++ c2) q s0 := by
  refine ⟨?_, fun x hx hf => List.mem_append_left _ (hd.2 x hx hf)⟩
  rw [List.getElem?_set_ne (Ne.symm hq)]
  exact hd.1

/-- The loop of `Prune` over the entries `es`, started from a heap in which
every session is either as in `h0` or already pruned: it does not panic, and
afterwards every session named by an entry is pruned, the others are as
before. -/
theorem pruneEntries_spec (T now : Int) (h0 : List Session) :
    ∀ (es : List (String × Ptr)) (h : List Session) (c : List Sock),
      h.length = h0.length →
      (∀ p s0, h0[p]? = some s0 → h[p]? = some s0 ∨ PrunedAt T now h c p s0) →
      (∀ e ∈ es, e.2 < h0.length) →
      ∃ h' c', pruneEntries T now es h c = some (h', c') ∧ h'.length = h0.length ∧
        (∀ p s0, h0[p]? = some s0 → h'[p]? = some s0 ∨ PrunedAt T now h' c' p s0) ∧
        (∀ p s0, h0[p]? = some s0 → PrunedAt T now h c p s0 → PrunedAt T now h' c' p s0) ∧
        (∀ e ∈ es, ∀ s0, h0[e.2]? = some s0 → PrunedAt T now h' c' e.2 s0) ∧
        (∀ p, (∀ e ∈ es, e.2 ≠ p) → h'[p]? = h[p]?) ∧
        (∀ x ∈ c, x ∈ c') := by
  intro es
  induction es with
  | nil =>
    intro h c hlen hinv _
    exact ⟨h, c, rfl, hlen, hinv, fun _ _ _ hd => hd,
      fun e he => absurd he (List.not_mem_nil e), fun _ _ => rfl, fun _ hx => hx⟩
  | cons e es ih =>
    intro h c hlen hinv hval
    obtain ⟨k, p⟩ := e
    have hp : p < h0.length := by simpa using hval (k, p) (List.mem_cons_self _ _)
    have hp0 : h0[p]? = some h0[p] := List.getElem?_eq_getElem hp
    have hph : p < h.length := by rw [hlen]; exact hp
    have hsh : h[p]? = some h[p] := List.getElem?_eq_getElem hph
    -- the session found at `p` prunes to the pruning of the original one
    have hpr : pruned T now h[p] = pruned T now h0[p] := by
      rcases hinv p h0[p] hp0 with h1 | h1
      · rw [hsh] at h1
        rw [Option.some.inj h1]
      · have h2 := h1.1
        rw [hsh] at h2
        rw [Option.some.inj h2, pruned_idem]
    have hA : PrunedAt T now (h.set p (pruned T now h[p]))
        (c ++ expiredSocks T now h[p].Connections) p h0[p] := by
      refine ⟨by rw [List.getElem?_set_self hph, hpr], ?_⟩
      intro x hx hf
      rcases hinv p h0[p] hp0 with h1 | h1
      · rw [hsh] at h1
        rw [Option.some.inj h1]
        exact List.mem_append_right _ (mem_expiredSocks T now _ x hx hf)
      · exact List.mem_append_left _ (h1.2 x hx hf)
    have hmono : ∀ q s0, h0[q]? = some s0 → PrunedAt T now h c q s0 →
        PrunedAt T now (h.set p (pruned T now h[p]))
          (c ++ expiredSocks T now h[p].Connections) q s0 := by
      intro q s0 hq0 hd
      by_cases hqp : q = p
      · subst hqp
        rw [hp0] at hq0
        rw [← Option.some.inj hq0]
        exact hA
      · exact PrunedAt_step T now h c _ p q _ s0 hqp hd
    have hinv1 : ∀ q s0, h0[q]? = some s0 →
        (h.set p (pruned T now h[p]))[q]? = some s0 ∨
        PrunedAt T now (h.set p (pruned T now h[p]))
          (c ++ expiredSocks T now h[p].Connections) q s0 := by
      intro q s0 hq0
      by_cases hqp : q = p
      · subst hqp
        rw [hp0] at hq0
        rw [← Option.some.inj hq0]
        exact Or.inr hA
      · rcases hinv q s0 hq0 with h1 | h1
        · left
          rw [List.getElem?_set_ne (Ne.symm hqp)]
          exact h1
        · exact Or.inr (hmono q s0 hq0 h1)
    obtain ⟨h', c', hrun, hlen', hinv', hmono', hes', hothers', hsub'⟩ :=
      ih (h.set p (pruned T now h[p])) (c ++ expiredSocks T now h[p].Connections)
        (by simpa using hlen) hinv1 (fun e he => hval e (List.mem_cons_of_mem _ he))
    refine ⟨h', c', ?_, hlen', hinv', ?_, ?_, ?_, ?_⟩
    · simp only [pruneEntries, hsh, pruneSession_eq]
      exact hrun
    · intro q s0 hq0 hd
      exact hmono' q s0 hq0 (hmono q s0 hq0 hd)
    · intro e he s0 hs0
      rcases List.mem_cons.mp he with rfl | he
      · simp only at hs0 ⊢
        rw [hp0] at hs0
        rw [← Option.some.inj hs0]
        exact hmono' p _ hp0 hA
      · exact hes' e he s0 hs0
    · intro q hq
      have hqp : p ≠ q := hq (k, p) (List.mem_cons_self _ _)
      rw [hothers' q (fun e he => hq e (List.mem_cons_of_mem _ he)),
        List.getElem?_set_ne hqp]
    · intro x hx
      exact hsub' x (List.mem_append_left _ hx)

/-- Method `Prune` on a state whose `Sessions` pointers are allocated: it does
not panic, every session named in `Sessions` is pruned and the sockets of its
expired workers are closed, and every other session is as before. -/
theorem Prune_spec (w : State) (now : Int) (hw : w.SessionsAllocated) :
    ∃ w', Prune now w = some w' ∧ w'.cp = w.cp ∧ w'.sent = w.sent ∧
      (∀ id p s, w.cp.Sessions.get id = some p → w.deref p = some s →
        w'.deref p = some (pruned w.cp.IdleTimeout now s) ∧
        ∀ x ∈ s.Connections, fresh w.cp.IdleTimeout now x = false → x.Conn ∈ w'.closed) ∧
      (∀ p s, w.deref p = some s →
        w'.deref p = some s ∨ w'.deref p = some (pruned w.cp.IdleTimeout now s)) ∧
      (∀ x ∈ w.closed, x ∈ w'.closed) := by
  obtain ⟨h', c', hrun, -, hinv, -, hes, -, hsub⟩ :=
    pruneEntries_spec w.cp.IdleTimeout now w.heap w.cp.Sessions w.heap w.closed rfl
      (fun p s0 h => Or.inl h) hw
  refine ⟨{ w with heap := h', closed := c' }, by simp [Prune, hrun], rfl, rfl, ?_, ?_, hsub⟩
  · intro id p s hid hs
    exact hes (id, p) (GoMap.mem_of_get _ _ _ hid) s hs
  · intro p s hs
    rcases hinv p s hs with h1 | h1
    · exact Or.inl h1
    · exact Or.inr h1.1

/-- C7: at every instant `now`, `Prune` (on a pooler whose sessions are
allocated) leaves in the idle queue of every session of `Sessions` exactly the
previously queued workers with `now - StartTime < IdleTimeout`, in their
original order; every worker with `now - StartTime >= IdleTimeout` is out of
the queue and its socket is closed; a queue of expired workers only becomes
empty. -/
theorem C7_Prune_keeps_fresh_workers (w : State) (now : Int) (hw : w.SessionsAllocated) :
    ∃ w', Prune now w = some w' ∧
      ∀ id p s, w.cp.Sessions.get id = some p → w.deref p = some s →
        ∃ s', w'.deref p = some s' ∧
          s'.Connections =
            s.Connections.filter (fun c => decide (now - c.StartTime < w.cp.IdleTimeout)) ∧
          (∀ c ∈ s.Connections, now - c.StartTime ≥ w.cp.IdleTimeout →
            c ∉ s'.Connections ∧ c.Conn ∈ w'.closed) ∧
          ((∀ c ∈ s.Connections, now - c.StartTime ≥ w.cp.IdleTimeout) →
            s'.Connections = []) := by
  obtain ⟨w', hrun, -, -, hses, -, -⟩ := Prune_spec w now hw
  refine ⟨w', hrun, ?_⟩
  intro id p s hid hs
  obtain ⟨hd, hcl⟩ := hses id p s hid hs
  refine ⟨_, hd, rfl, ?_, ?_⟩
  · intro c hc hexp
    refine ⟨?_, hcl c hc (by simp [fresh]; omega)⟩
    simp only [pruned, List.mem_filter, fresh, decide_eq_true_eq, not_and, not_lt]
    intro _
    omega
  · intro hall
    simp only [pruned, List.filter_eq_nil_iff, fresh, decide_eq_true_eq, not_lt]
    intro c hc
    have := hall c hc
    omega

/-- The pooler of `oneIdleWorker` allocates its session. -/
theorem oneIdleWorker_allocated : oneIdleWorker.SessionsAllocated := by
  intro e he
  simp only [oneIdleWorker, List.mem_singleton] at he
  subst he
  decide

/-- Witness of `C7_Prune_keeps_fresh_workers`: the worker queued at time 0 is
pruned 61 s later; the queue of `S0` is then empty and socket 7 is closed. -/
theorem C7_Prune_keeps_fresh_workers_witness :
    ∃ w' s', Prune (61 * Second) oneIdleWorker = some w' ∧ w'.deref 0 = some s' ∧
      s'.Connections = [] ∧ 7 ∈ w'.closed := by
  obtain ⟨w', hrun, h⟩ :=
    C7_Prune_keeps_fresh_workers oneIdleWorker (61 * Second) oneIdleWorker_allocated
  obtain ⟨s', hd, hq, hexp, -⟩ := h "S0" 0 sessionWithWorker (by decide) (by decide)
  exact ⟨w', s', hrun, hd, by rw [hq]; decide, (hexp idleWorker (by decide) (by decide)).2⟩

/-- C8: after `Prune`, the `NextOpen` of every session of `Sessions` whose
pruned queue holds at most `MAX_CHAN_SIZE = 99999` workers is the least value
`5 * 2 ^ j` strictly greater than the length of the pruned queue; it is 5 when
the pruned queue is empty. -/
theorem C8_Prune_resets_NextOpen (w : State) (now : Int) (hw : w.SessionsAllocated) :
    ∃ w', Prune now w = some w' ∧
      ∀ id p s, w.cp.Sessions.get id = some p → w.deref p = some s →
        ∃ s', w'.deref p = some s' ∧
          (s'.Connections.length ≤ MAX_CHAN_SIZE →
            ∃ j, s'.NextOpen = 5 * 2 ^ j ∧ (s'.Connections.length : Int) < 5 * 2 ^ j ∧
              ∀ i, (s'.Connections.length : Int) < 5 * 2 ^ i → j ≤ i) ∧
          (s'.Connections = [] → s'.NextOpen = 5) := by
  obtain ⟨w', hrun, -, -, hses, -, -⟩ := Prune_spec w now hw
  refine ⟨w', hrun, ?_⟩
  intro id p s hid hs
  obtain ⟨hd, -⟩ := hses id p s hid hs
  refine ⟨_, hd, ?_, ?_⟩
  · intro hlen
    have hb : (((pruned w.cp.IdleTimeout now s).Connections.length : Nat) : Int) < 5 * 2 ^ 60 := by
      have : (pruned w.cp.IdleTimeout now s).Connections.length ≤ 99999 := hlen
      omega
    obtain ⟨j, -, he, hlt, hmin⟩ := GetNextOpen_least _ hb
    exact ⟨j, he, hlt, hmin⟩
  · intro hnil
    have hnil2 : s.Connections.filter (fresh w.cp.IdleTimeout now) = [] := hnil
    simp only [pruned, hnil2, List.length_nil]
    decide

/-- Witness of `C8_Prune_resets_NextOpen`: pruning `oneIdleWorker` one second
after its worker was queued keeps the worker and gives `NextOpen` a value of
the schedule above the queue length 1. -/
theorem C8_Prune_resets_NextOpen_witness :
    ∃ w' s', Prune (1 * Second) oneIdleWorker = some w' ∧ w'.deref 0 = some s' ∧
      ∃ j, s'.NextOpen = 5 * 2 ^ j ∧ (s'.Connections.length : Int) < 5 * 2 ^ j ∧
        ∀ i, (s'.Connections.length : Int) < 5 * 2 ^ i → j ≤ i := by
  obtain ⟨w', hrun, h⟩ :=
    C8_Prune_resets_NextOpen oneIdleWorker (1 * Second) oneIdleWorker_allocated
  obtain ⟨s', hd, hj, -⟩ := h "S0" 0 sessionWithWorker (by decide) (by decide)
  have hs' : w'.deref 0 = some (pruned oneIdleWorker.cp.IdleTimeout (1 * Second)
      sessionWithWorker) := by
    have hrun2 : Prune (1 * Second) oneIdleWorker = some w' := hrun
    revert hrun2
    simp only [Prune, pruneEntries, oneIdleWorker, pruneSession_eq]
    intro hrun2
    rw [← Option.some.inj hrun2]
    rfl
  have hlen : s'.Connections.length ≤ MAX_CHAN_SIZE := by
    rw [hs'] at hd
    rw [← Option.some.inj hd]
    decide
  exact ⟨w', s', hrun, hd, hj hlen⟩

/-! ## Monotonicity of NextOpen -/

theorem NextOpen_le_of_set (h : List Session) (q : Ptr) (s1 s2 : Session)
    (hq : h[q]? = some s1) (hle : s1.NextOpen ≤ s2.NextOpen) (p : Ptr) (s : Session)
    (hp : h[p]? = some s) :
    ∃ s', (h.set q s2)[p]? = some s' ∧ s.NextOpen ≤ s'.NextOpen := by
  by_cases hpq : q = p
  · subst hpq
    have hlt : q < h.length := (List.getElem?_eq_some.mp hq).1
    rw [hq] at hp
    rw [← Option.some.inj hp]
    exact ⟨s2, List.getElem?_set_self hlt, hle⟩
  · exact ⟨s, by rw [List.getElem?_set_ne hpq]; exact hp, le_refl _⟩

/-- C6, counterexample: a session whose `NextOpen` is 10 after one
`OpenMoreConns`, with an empty queue, has `NextOpen = 5` after `Prune`. -/
theorem C6_Prune_lowers_NextOpen_counterexample :
    (afterOneOpenMore.bind (fun w => w.deref 0)).map (fun s => s.NextOpen) = some 10 ∧
    ((afterOneOpenMore.bind (fun w => PoolOp.apply w (.Prune 0))).bind
      (fun w => w.deref 0)).map (fun s => s.NextOpen) = some 5 := by
  constructor <;> decide

/-- C6, amended: each of the operations `OpenMoreConns`, `PutConn` and
`GetConn`, applied to a state in which a session has `NextOpen < 5 * 2 ^ 60`,
leaves that session with a `NextOpen` greater than or equal to the one it
had. -/
theorem C6_NextOpen_monotone_without_Prune (w w' : State) (op : PoolOp) (p : Ptr)
    (s : Session) (hop : ∀ now, op ≠ .Prune now) (hrun : op.apply w = some w')
    (hs : w.deref p = some s) (hb : s.NextOpen < 5 * 2 ^ 60) :
    ∃ s', w'.deref p = some s' ∧ s.NextOpen ≤ s'.NextOpen := by
  cases op with
  | Prune now => exact absurd rfl (hop now)
  | OpenMoreConns q =>
    simp only [PoolOp.apply, OpenMoreConns] at hrun
    cases hq : w.deref q with
    | none => simp [hq] at hrun
    | some sq =>
      simp only [hq] at hrun
      rw [← Option.some.inj hrun]
      by_cases hpq : q = p
      · subst hpq
        rw [hs] at hq
        rw [← Option.some.inj hq]
        exact NextOpen_le_of_set w.heap q s _ hs (le_of_lt (GetNextOpen_gt _ hb)) q s hs
      · exact ⟨s, by simp only [State.deref]; rw [List.getElem?_set_ne hpq]; exact hs,
          le_refl _⟩
  | PutConn id c =>
    simp only [PoolOp.apply, PutConn] at hrun
    split at hrun
    · simp only [Option.map_some', Option.some.injEq] at hrun
      subst hrun
      exact ⟨s, hs, le_refl _⟩
    · cases hid : w.cp.Sessions.get id with
      | none => simp [hid] at hrun
      | some q =>
        cases hq : w.deref q with
        | none => simp [hid, hq] at hrun
        | some sq =>
          simp only [hid, hq] at hrun
          split at hrun
          · simp only [Option.map_some', Option.some.injEq] at hrun
            subst hrun
            exact NextOpen_le_of_set w.heap q sq { sq with Connections := sq.Connections ++ [c] }
              hq (le_refl _) p s hs
          · simp only [Option.map_some', Option.some.injEq] at hrun
            subst hrun
            exact ⟨s, hs, le_refl _⟩
  | GetConn id =>
    simp only [PoolOp.apply, GetConn] at hrun
    split at hrun
    · simp only [Option.map_some', Option.some.injEq] at hrun
      subst hrun
      exact ⟨s, hs, le_refl _⟩
    · cases hid : w.cp.Sessions.get id with
      | none => simp [hid] at hrun
      | some q =>
        cases hq : w.deref q with
        | none => simp [hid, hq] at hrun
        | some sq =>
          simp only [hid, hq] at hrun
          cases hc : sq.Connections with
          | nil =>
            simp only [hc, Option.map_some', Option.some.injEq] at hrun
            subst hrun
            exact ⟨s, hs, le_refl _⟩
          | cons c rest =>
            simp only [hc, Option.map_some', Option.some.injEq] at hrun
            subst hrun
            exact NextOpen_le_of_set w.heap q sq { sq with Connections := rest }
              hq (le_refl _) p s hs

/-- Witness of `C6_NextOpen_monotone_without_Prune`: `OpenMoreConns` on the
session of `oneIdleWorker`, whose `NextOpen` is 5. -/
theorem C6_NextOpen_monotone_without_Prune_witness :
    ∃ w', OpenMoreConns oneIdleWorker 0 = some w' ∧
      ∃ s', w'.deref 0 = some s' ∧ sessionWithWorker.NextOpen ≤ s'.NextOpen :=
  ⟨_, rfl, C6_NextOpen_monotone_without_Prune oneIdleWorker _ (.OpenMoreConns 0) 0
    sessionWithWorker (fun _ h => by cases h) rfl (by decide) (by decide)⟩

/-! ## Frame primitives -/

theorem ReadUint32_WriteUint32 (v : Nat) (hv : v < 2 ^ 32) (rest : List Nat) :
    ReadUint32 (WriteUint32 v ++ rest) = .ok (v, rest) := by
  simp only [ReadUint32, readFull, WriteUint32, List.cons_append, List.nil_append,
    List.length_cons]
  rw [if_pos (by omega)]
  simp only [List.take, List.drop, List.getD_cons_zero, List.getD_cons_succ, Except.ok.injEq,
    Prod.mk.injEq, and_true]
  omega

theorem readFull_append (p rest : List Nat) :
    readFull (p ++ rest) p.length = .ok (p, rest) := by
  simp [readFull]

/-- C9: write-then-read of each frame primitive gives the value back and leaves
the rest of the stream: a `uint32` through its 4 big-endian bytes, a `bool`
through its byte 00 or 01, and a byte buffer of length `L < 2 ^ 32` through
`WriteUint32(L)` followed by `WriteBuffer`, which are `4 + L` bytes. -/
theorem C9_frame_roundtrip :
    (∀ (v : Nat) (rest : List Nat), v < 2 ^ 32 →
      (WriteUint32 v).length = 4 ∧ ReadUint32 (WriteUint32 v ++ rest) = .ok (v, rest)) ∧
    (∀ (b : Bool) (rest : List Nat),
      (WriteBool b = [0] ∨ WriteBool b = [1]) ∧ ReadBool (WriteBool b ++ rest) = .ok (b, rest)) ∧
    (∀ (p rest : List Nat), p.length < 2 ^ 32 →
      (WriteUint32 p.length ++ WriteBuffer p).length = 4 + p.length ∧
      readLengthPrefixed (WriteUint32 p.length ++ WriteBuffer p ++ rest) = .ok (p, rest)) := by
  refine ⟨?_, ?_, ?_⟩
  · intro v rest hv
    exact ⟨rfl, ReadUint32_WriteUint32 v hv rest⟩
  · intro b rest
    cases b
    · exact ⟨Or.inl rfl, by simp [ReadBool, readFull, WriteBool]⟩
    · exact ⟨Or.inr rfl, by simp [ReadBool, readFull, WriteBool]⟩
  · intro p rest hp
    refine ⟨by simp [WriteUint32, WriteBuffer]; omega, ?_⟩
    rw [List.append_assoc]
    simp only [readLengthPrefixed, ReadUint32_WriteUint32 p.length hp, ReadIntoBuffer,
      WriteBuffer, readFull_append]

/-- Witness of `C9_frame_roundtrip`: the value 65535, and the buffer
`[104, 105]` followed by one more byte of the stream. -/
theorem C9_frame_roundtrip_witness :
    ((WriteUint32 65535).length = 4 ∧
      ReadUint32 (WriteUint32 65535 ++ [9]) = .ok (65535, [9])) ∧
    ((WriteUint32 [104, 105].length ++ WriteBuffer [104, 105]).length = 4 + [104, 105].length ∧
      readLengthPrefixed (WriteUint32 [104, 105].length ++ WriteBuffer [104, 105] ++ [9]) =
        .ok ([104, 105], [9])) :=
  ⟨C9_frame_roundtrip.1 65535 [9] (by decide), C9_frame_roundtrip.2.2 [104, 105] [9] (by decide)⟩

/-! ## ReadSNIFromClientHello -/

theorem Slice.View.length_eq {s : Slice} {bs : List Nat} (h : s.View bs) :
    bs.length = s.hi - s.lo := by
  obtain ⟨h1, h2, h3⟩ := h
  rw [← h3, List.length_take, List.length_drop]
  omega

theorem Slice.View.index {s : Slice} {bs : List Nat} (h : s.View bs) (i : Nat)
    (hi : i < bs.length) : s.index i = .ok (bs.getD i 0) := by
  have hlen := h.length_eq
  obtain ⟨h1, h2, h3⟩ := h
  have hget : s.arr[s.lo + i]? = bs[i]? := by
    rw [← h3, List.getElem?_take_of_lt (by omega), List.getElem?_drop]
  have hb : bs[i]? = some (bs.getD i 0) := by
    rw [List.getD_eq_getElem?_getD, List.getElem?_eq_getElem hi]
    rfl
  simp only [Slice.index, Slice.len]
  rw [if_pos (by omega), hget, hb]

theorem Slice.View.sliceFrom {s : Slice} {a b : List Nat} (h : s.View (a ++ b)) (n : Nat)
    (hn : a.length = n) : ∃ s', s.sliceFrom n = .ok s' ∧ s'.View b := by
  have hlen := h.length_eq
  obtain ⟨h1, h2, h3⟩ := h
  rw [List.length_append] at hlen
  refine ⟨{ s with lo := s.lo + n }, ?_, ?_, h2, ?_⟩
  · simp only [Slice.sliceFrom, Slice.len]
    rw [if_pos (by omega)]
  · show s.lo + n ≤ s.hi
    omega
  · show (s.arr.drop (s.lo + n)).take (s.hi - (s.lo + n)) = b
    have : (a ++ b).drop n = b := by rw [← hn]; exact List.drop_left a b
    rw [← this, ← h3, List.drop_take, List.drop_drop]
    congr 1
    omega

theorem Slice.View.sliceTo {s : Slice} {a b : List Nat} (h : s.View (a ++ b)) (n : Nat)
    (hn : a.length = n) : ∃ s', s.sliceTo n = .ok s' ∧ s'.View a := by
  have hlen := h.length_eq
  obtain ⟨h1, h2, h3⟩ := h
  rw [List.length_append] at hlen
  refine ⟨{ s with hi := s.lo + n }, ?_, ?_, ?_, ?_⟩
  · simp only [Slice.sliceTo]
    rw [if_pos (by omega)]
  · show s.lo ≤ s.lo + n
    omega
  · show s.lo + n ≤ s.arr.length
    omega
  · show (s.arr.drop s.lo).take (s.lo + n - s.lo) = a
    have : (a ++ b).take n = a := by rw [← hn]; exact List.take_left a b
    rw [← this, ← h3, List.take_take]
    congr 1
    omega

theorem Slice.View.bytes {s : Slice} {bs : List Nat} (h : s.View bs) : s.bytes = bs := h.2.2


theorem u16_read (n : Nat) (h : n < 65536) : n / 256 % 256 * 256 + n % 256 = n := by omega

theorem encodeExtensions_append (xs ys : List Extension) :
    encodeExtensions (xs ++ ys) = encodeExtensions xs ++ encodeExtensions ys := by
  induction xs with
  | nil => rfl
  | cons x xs ih => simp [encodeExtensions, ih]

/-- The extension loop on a record that holds the extensions `pre`, none of
type 0, then an extension of type 0 whose data has the length `2 + c` at
least, `c` the number in its first two bytes, and zero as third byte: the
result is the data from its sixth byte on. -/
theorem extensionLoop_spec (c0 c1 d3 d4 : Nat) (rest after : List Nat)
    (hdata : (c0 :: c1 :: 0 :: d3 :: d4 :: rest).length < 65536)
    (hcurr : 2 + (c0 * 256 + c1) ≤ (c0 :: c1 :: 0 :: d3 :: d4 :: rest).length) :
    ∀ (pre : List Extension), (∀ e ∈ pre, e.type ≠ 0 ∧ e.type < 65536 ∧ e.data.length < 65536) →
      ∀ (fuel : Nat) (s : Slice), pre.length < fuel →
        s.View (encodeExtensions pre ++
          ((Extension.encode ⟨0, c0 :: c1 :: 0 :: d3 :: d4 :: rest⟩) ++ after)) →
        extensionLoop fuel s = .ok rest := by
  intro pre
  induction pre with
  | nil =>
    intro _ fuel s hfuel hv
    obtain ⟨f, rfl⟩ : ∃ f, fuel = f + 1 := ⟨fuel - 1, by omega⟩
    simp only [encodeExtensions, List.nil_append, Extension.encode, u16, List.cons_append,
      List.length_cons] at hv hdata hcurr
    have i0 := hv.index 0 (by simp)
    have i1 := hv.index 1 (by simp)
    have i2 := hv.index 2 (by simp)
    have i3 := hv.index 3 (by simp)
    simp only [List.getD_cons_zero, List.getD_cons_succ] at i0 i1 i2 i3
    have hv4 : s.View ([0 / 256 % 256, 0 % 256, (rest.length + 1 + 1 + 1 + 1 + 1) / 256 % 256,
        (rest.length + 1 + 1 + 1 + 1 + 1) % 256] ++
        ((c0 :: c1 :: 0 :: d3 :: d4 :: rest) ++ after)) := by
      simpa using hv
    obtain ⟨s1, hs1, hv1⟩ := hv4.sliceFrom 4 rfl
    obtain ⟨s2, hs2, hv2⟩ := hv1.sliceTo
      ((rest.length + 1 + 1 + 1 + 1 + 1) / 256 % 256 * 256 + (rest.length + 1 + 1 + 1 + 1 + 1) % 256)
      (by simp only [List.length_cons]; omega)
    have j0 := hv2.index 0 (by simp)
    have j1 := hv2.index 1 (by simp)
    have j2 := hv2.index 2 (by simp)
    simp only [List.getD_cons_zero, List.getD_cons_succ] at j0 j1 j2
    have hv2' : s2.View ([c0, c1, 0, d3, d4] ++ rest) := by simpa using hv2
    obtain ⟨s3, hs3, hv3⟩ := hv2'.sliceFrom 5 rfl
    have hlen2 := hv2.length_eq
    have hs4 : ∃ s4, s2.sliceFrom (2 + (c0 * 256 + c1)) = .ok s4 := by
      refine ⟨{ s2 with lo := s2.lo + (2 + (c0 * 256 + c1)) }, ?_⟩
      simp only [Slice.sliceFrom, Slice.len]
      rw [if_pos (by simp only [List.length_cons] at hlen2; omega)]
    obtain ⟨s4, hs4⟩ := hs4
    simp [extensionLoop, bind, Except.bind, i0, i1, i2, i3, hs1, hs2, j0, j1, j2, hs3, hs4,
      Except.map, hv3.bytes, pure, Except.pure]
  | cons e pre ih =>
    intro hpre fuel s hfuel hv
    obtain ⟨f, rfl⟩ : ∃ f, fuel = f + 1 := ⟨fuel - 1, by omega⟩
    obtain ⟨ht0, ht, hd⟩ := hpre e (List.mem_cons_self _ _)
    have hv' : s.View (([e.type / 256 % 256, e.type % 256, e.data.length / 256 % 256,
        e.data.length % 256] ++ e.data) ++
        (encodeExtensions pre ++
          ((Extension.encode ⟨0, c0 :: c1 :: 0 :: d3 :: d4 :: rest⟩) ++ after))) := by
      simpa [encodeExtensions, Extension.encode, u16] using hv
    have i0 := hv'.index 0 (by simp)
    have i1 := hv'.index 1 (by simp)
    have i2 := hv'.index 2 (by simp)
    have i3 := hv'.index 3 (by simp)
    simp only [List.cons_append, List.nil_append, List.getD_cons_zero, List.getD_cons_succ]
      at i0 i1 i2 i3
    have hlen := u16_read e.data.length hd
    have htype := u16_read e.type ht
    obtain ⟨s1, hs1, hv1⟩ := hv'.sliceFrom
      (4 + (e.data.length / 256 % 256 * 256 + e.data.length % 256))
      (by simp only [List.length_append, List.length_cons, List.length_nil]; omega)
    have hrec := ih (fun x hx => hpre x (List.mem_cons_of_mem _ hx)) f s1
      (by simp only [List.length_cons] at hfuel; omega) hv1
    have hne : ¬ (e.type / 256 % 256 * 256 + e.type % 256 = 0) := by omega
    simp [extensionLoop, bind, Except.bind, i0, i1, i2, i3, hs1, hne, hrec]

theorem length_le_encodeExtensions (es : List Extension) :
    es.length ≤ (encodeExtensions es).length := by
  induction es with
  | nil => simp
  | cons e es ih =>
    simp only [encodeExtensions, Extension.encode, u16, List.length_append, List.length_cons,
      List.length_nil]
    omega

theorem Reader.Peek_view (r : Reader) (n : Nat) (h1 : n ≤ r.size) (h2 : n ≤ r.stream.length) :
    ∃ s, r.Peek n = .ok s ∧ s.View (r.stream.take n) ∧ s.len = n := by
  refine ⟨{ arr := r.stream.take r.size ++ List.replicate (r.size - r.stream.length) 0,
            lo := 0, hi := n }, ?_, ⟨Nat.zero_le _, ?_, ?_⟩, rfl⟩
  · simp only [Reader.Peek]
    rw [if_neg (by omega), if_neg (by omega)]
  · simp only [List.length_append, List.length_take, List.length_replicate]
    omega
  · simp only [List.drop_zero, Nat.sub_zero]
    rw [List.take_append_of_le_length (by simp only [List.length_take]; omega),
      List.take_take]
    congr 1
    omega

/-- Lines 127 to 167 on the record of a well-formed ClientHello: no error, no
panic, and the slice that is left shows the extensions. -/
theorem skipToExtensions_spec (ch : ClientHello) (hwf : ch.WellFormed) (s : Slice)
    (hv : s.View ch.record) :
    ∃ s', skipToExtensions s = .ok s' ∧ s'.View (encodeExtensions ch.extensions) := by
  obtain ⟨hver, hrand, hsid, hcs, hcm, -, -⟩ := hwf
  have hv0 : s.View ([0x16, 0x03, 0x01, ch.handshake.length / 256 % 256,
      ch.handshake.length % 256] ++ ch.handshake) := by
    simpa [ClientHello.record, u16] using hv
  obtain ⟨s1, hs1, hv1⟩ := hv0.sliceFrom 5 rfl
  have hv1' : s1.View ([1, ch.body.length / 65536 % 256, ch.body.length / 256 % 256,
      ch.body.length % 256] ++ ch.body) := by
    simpa [ClientHello.handshake, u24] using hv1
  have i1 := hv1'.index 0 (by simp)
  simp only [List.cons_append, List.getD_cons_zero] at i1
  obtain ⟨s2, hs2, hv2⟩ := hv1'.sliceFrom 4 rfl
  have hv2' : s2.View (ch.version ++ (ch.random ++ ch.tail)) := hv2
  obtain ⟨s3, hs3, hv3⟩ := hv2'.sliceFrom 2 hver
  obtain ⟨s4, hs4, hv4⟩ := hv3.sliceFrom 32 hrand
  have hv4' : s4.View ([ch.sessionID.length] ++ (ch.sessionID ++ ch.fromCipherSuites)) := hv4
  have i4 := hv4'.index 0 (by simp)
  simp only [List.cons_append, List.getD_cons_zero] at i4
  obtain ⟨s5, hs5, hv5⟩ := hv4'.sliceFrom 1 rfl
  obtain ⟨s6, hs6, hv6⟩ := hv5.sliceFrom ch.sessionID.length rfl
  have hv6' : s6.View ([ch.cipherSuites.length / 256 % 256, ch.cipherSuites.length % 256] ++
      (ch.cipherSuites ++ ch.fromCompression)) := by
    simpa [ClientHello.fromCipherSuites, u16] using hv6
  have i6 := hv6'.index 0 (by simp)
  have j6 := hv6'.index 1 (by simp)
  simp only [List.cons_append, List.getD_cons_zero, List.getD_cons_succ] at i6 j6
  obtain ⟨s7, hs7, hv7⟩ := hv6'.sliceFrom 2 rfl
  obtain ⟨s8, hs8, hv8⟩ := hv7.sliceFrom
    (ch.cipherSuites.length / 256 % 256 * 256 + ch.cipherSuites.length % 256)
    (u16_read _ hcs).symm
  have hv8' : s8.View ([ch.compressionMethods.length] ++
      (ch.compressionMethods ++ ch.fromExtensions)) := hv8
  have i8 := hv8'.index 0 (by simp)
  simp only [List.cons_append, List.getD_cons_zero] at i8
  obtain ⟨s9, hs9, hv9⟩ := hv8'.sliceFrom 1 rfl
  obtain ⟨s10, hs10, hv10⟩ := hv9.sliceFrom ch.compressionMethods.length rfl
  have hv10' : s10.View ([(encodeExtensions ch.extensions).length / 256 % 256,
      (encodeExtensions ch.extensions).length % 256] ++ encodeExtensions ch.extensions) := by
    simpa [ClientHello.fromExtensions, u16] using hv10
  obtain ⟨s11, hs11, hv11⟩ := hv10'.sliceFrom 2 rfl
  refine ⟨s11, ?_, hv11⟩
  simp [skipToExtensions, bind, Except.bind, hs1, i1, hs2, hs3, hs4, i4, hs5, hs6, i6, j6, hs7,
    hs8, i8, hs9, hs10, hs11, pure, Except.pure]

theorem Reader.Peek_index (r : Reader) (n : Nat) (s : Slice) (hs : s.View (r.stream.take n))
    (h2 : n ≤ r.stream.length) (i : Nat) (hi : i < n) :
    s.index i = .ok (r.stream.getD i 0) := by
  rw [hs.index i (by rw [List.length_take]; omega)]
  congr 1
  rw [List.getD_eq_getElem?_getD, List.getD_eq_getElem?_getD, List.getElem?_take_of_lt hi]

theorem ClientHello.record_length (ch : ClientHello) :
    ch.record.length = 5 + ch.handshake.length := by
  simp only [ClientHello.record, u16, List.length_append, List.length_cons, List.length_nil]

theorem ClientHello.handshake_length (ch : ClientHello) :
    ch.handshake.length = 4 + ch.body.length := by
  simp only [ClientHello.handshake, u24, List.length_append, List.length_cons, List.length_nil]

/-- On a reader that delivers the record of a well-formed ClientHello and
whose buffer holds the record, `ReadSNIFromClientHello` returns the data of
the first extension of type 0 from its sixth byte on, when the third byte of
that data is zero and the number in its first two bytes, plus 2, is at most
its length. -/
theorem ReadSNIFromClientHello_spec (ch : ClientHello) (pre post : List Extension)
    (c0 c1 d3 d4 : Nat) (rest tl : List Nat) (size : Nat) (hwf : ch.WellFormed)
    (hexts : ch.extensions = pre ++ ⟨0, c0 :: c1 :: 0 :: d3 :: d4 :: rest⟩ :: post)
    (hpre : ∀ e ∈ pre, e.type ≠ 0)
    (hcurr : 2 + (c0 * 256 + c1) ≤ rest.length + 5)
    (hfit : ch.record.length ≤ size) :
    ReadSNIFromClientHello { stream := ch.record ++ tl, size := size } = .ok rest := by
  have hhl : ch.handshake.length < 65536 := hwf.2.2.2.2.2.2
  have hextwf := hwf.2.2.2.2.2.1
  have hrl := ch.record_length
  have hhs := ch.handshake_length
  have hstream : ch.record ++ tl =
      0x16 :: 0x03 :: 0x01 :: (ch.handshake.length / 256 % 256) :: (ch.handshake.length % 256) ::
        1 :: (ch.body.length / 65536 % 256) :: (ch.body.length / 256 % 256) ::
        (ch.body.length % 256) :: (ch.body ++ tl) := by
    simp [ClientHello.record, ClientHello.handshake, u16, u24]
  have hsl : (ch.record ++ tl).length = 5 + ch.handshake.length + tl.length := by
    rw [List.length_append, hrl]
  -- the first Peek
  obtain ⟨header, hpeek1, hvh, hlenh⟩ :=
    Reader.Peek_view { stream := ch.record ++ tl, size := size } 9 (by show 9 ≤ size; omega)
      (by show 9 ≤ (ch.record ++ tl).length; omega)
  have hidx : ∀ i, i < 9 → header.index i = .ok ((ch.record ++ tl).getD i 0) := fun i hi =>
    Reader.Peek_index { stream := ch.record ++ tl, size := size } 9 header hvh
      (by show 9 ≤ (ch.record ++ tl).length; omega) i hi
  have h0 := hidx 0 (by omega)
  have h1 := hidx 1 (by omega)
  have h2 := hidx 2 (by omega)
  have h3 := hidx 3 (by omega)
  have h4 := hidx 4 (by omega)
  simp only [hstream, List.getD_cons_zero, List.getD_cons_succ] at h0 h1 h2 h3 h4
  -- the second Peek
  have hread := u16_read ch.handshake.length hhl
  obtain ⟨full, hpeek2, hvf, hlenf⟩ :=
    Reader.Peek_view { stream := ch.record ++ tl, size := size }
      (5 + (ch.handshake.length / 256 % 256 * 256 + ch.handshake.length % 256))
      (by rw [hread]; show 5 + ch.handshake.length ≤ size; omega)
      (by rw [hread]; show 5 + ch.handshake.length ≤ (ch.record ++ tl).length; omega)
  have htake : (ch.record ++ tl).take
      (5 + (ch.handshake.length / 256 % 256 * 256 + ch.handshake.length % 256)) = ch.record := by
    rw [hread, ← hrl]
    exact List.take_left _ _
  simp only [htake] at hvf
  -- the ClientHello fields
  obtain ⟨s', hskip, hvs⟩ := skipToExtensions_spec ch hwf full hvf
  -- the extensions
  have hvs' : s'.View (encodeExtensions pre ++
      ((Extension.encode ⟨0, c0 :: c1 :: 0 :: d3 :: d4 :: rest⟩) ++ encodeExtensions post)) := by
    have : encodeExtensions ch.extensions = encodeExtensions pre ++
        ((Extension.encode ⟨0, c0 :: c1 :: 0 :: d3 :: d4 :: rest⟩) ++ encodeExtensions post) := by
      rw [hexts, encodeExtensions_append]
      rfl
    rw [← this]
    exact hvs
  have hpre' : ∀ e ∈ pre, e.type ≠ 0 ∧ e.type < 65536 ∧ e.data.length < 65536 := by
    intro e he
    have := hextwf e (by rw [hexts]; exact List.mem_append_left _ he)
    exact ⟨hpre e he, this.1, this.2⟩
  have hdata : (c0 :: c1 :: 0 :: d3 :: d4 :: rest).length < 65536 :=
    (hextwf ⟨0, c0 :: c1 :: 0 :: d3 :: d4 :: rest⟩
      (by rw [hexts]; exact List.mem_append_right _ (List.mem_cons_self _ _))).2
  have hfuel : pre.length < s'.len + 1 := by
    have h1 := length_le_encodeExtensions pre
    have h2 := hvs'.length_eq
    rw [List.length_append] at h2
    simp only [Slice.len]
    omega
  have hloop := extensionLoop_spec c0 c1 d3 d4 rest (encodeExtensions post) hdata
    (by simp only [List.length_cons]; omega) pre hpre' (s'.len + 1) s' hfuel hvs'
  have hnot : ¬ header.len < 9 := by omega
  have hlen5 : ¬ (ch.handshake.length / 256 % 256 * 256 + ch.handshake.length % 256 + 5
      ≠ full.len) := by
    rw [hlenf]
    omega
  simp only [ReadSNIFromClientHello, hpeek1, hnot, if_false, bind, Except.bind, h0, h1, h2, h3, h4,
    hpeek2, hlen5, hskip, hloop, pure, Except.pure, ne_eq, not_true_eq_false, or_self,
    throw, throwThe, MonadExceptOf.throw]

theorem helloTwoNames_wellFormed : helloTwoNames.WellFormed := by
  refine ⟨by decide, by decide, by decide, by decide, by decide, ?_, by decide⟩
  intro e he
  simp only [helloTwoNames, List.mem_cons, List.mem_singleton, List.not_mem_nil, or_false] at he
  rcases he with rfl | rfl <;> decide

theorem helloOneName_wellFormed : helloOneName.WellFormed := by
  refine ⟨by decide, by decide, by decide, by decide, by decide, ?_, by decide⟩
  intro e he
  simp only [helloOneName, List.mem_cons, List.mem_singleton, List.not_mem_nil, or_false] at he
  rcases he with rfl | rfl | rfl <;> decide

/-- C10, counterexample: on a complete ClientHello whose `server_name`
extension lists the host name `a` (hostname length 1, byte 97) and then a
second entry, read through a buffer of 4096 bytes, `ReadSNIFromClientHello`
returns the five bytes `a`, 1, 0, 1, `b`: the hostname and the bytes of the
entry after it. -/
theorem C10_second_entry_counterexample :
    (helloTwoNames.extensions.map (fun e => e.type) = [0x0a, 0]) ∧
    serverNameData [⟨0, [97]⟩, ⟨1, [98]⟩] = [0, 8, 0, 0, 1, 97, 1, 0, 1, 98] ∧
    ReadSNIFromClientHello { stream := helloTwoNames.record, size := 4096 } =
      .ok [97, 1, 0, 1, 98] ∧
    ([97, 1, 0, 1, 98] : List Nat) ≠ [97] := by
  refine ⟨by decide, by decide, ?_, by decide⟩
  have := ReadSNIFromClientHello_spec helloTwoNames [⟨0x0a, [0, 2, 0, 0x1d]⟩] []
    0 8 0 1 [97, 1, 0, 1, 98] [] 4096 helloTwoNames_wellFormed (by decide) (by decide)
    (by decide) (by decide)
  simpa using this

/-- C10, amended: for every byte stream that begins with the record of a
complete ClientHello, read through a buffer that holds the whole record, in
which the first extension of type 0 is a `server_name` extension whose first
entry has name type 0, `ReadSNIFromClientHello` returns the bytes of that
extension that follow the entry's 2-byte hostname length, up to the end of
the extension: the hostname, followed by the bytes of the further entries of
the list; it is exactly the hostname when the list has that one entry. -/
theorem C10_ReadSNI_rest_of_extension (ch : ClientHello) (pre post : List Extension)
    (n : ServerName) (ns : List ServerName) (tl : List Nat) (size : Nat)
    (hwf : ch.WellFormed)
    (hexts : ch.extensions = pre ++ ⟨0, serverNameData (n :: ns)⟩ :: post)
    (hpre : ∀ e ∈ pre, e.type ≠ 0) (hn : n.nameType = 0)
    (hfit : ch.record.length ≤ size) :
    ReadSNIFromClientHello { stream := ch.record ++ tl, size := size } =
      .ok (n.name ++ encodeServerNames ns) ∧
    (ns = [] →
      ReadSNIFromClientHello { stream := ch.record ++ tl, size := size } = .ok n.name) := by
  have hdata : serverNameData (n :: ns) =
      ((encodeServerNames (n :: ns)).length / 256 % 256) ::
      ((encodeServerNames (n :: ns)).length % 256) :: 0 ::
      (n.name.length / 256 % 256) :: (n.name.length % 256) ::
      (n.name ++ encodeServerNames ns) := by
    simp [serverNameData, encodeServerNames, ServerName.encode, u16, hn]
  have hlen : (serverNameData (n :: ns)).length < 65536 :=
    (hwf.2.2.2.2.2.1 ⟨0, serverNameData (n :: ns)⟩
      (by rw [hexts]; exact List.mem_append_right _ (List.mem_cons_self _ _))).2
  have hL : (encodeServerNames (n :: ns)).length =
      3 + n.name.length + (encodeServerNames ns).length := by
    simp only [encodeServerNames, ServerName.encode, u16, List.length_append, List.length_cons,
      List.length_nil]
  have hlen2 : (encodeServerNames (n :: ns)).length < 65536 := by
    simp only [serverNameData, u16, List.length_append, List.length_cons, List.length_nil]
      at hlen
    omega
  have hmain := ReadSNIFromClientHello_spec ch pre post
    ((encodeServerNames (n :: ns)).length / 256 % 256)
    ((encodeServerNames (n :: ns)).length % 256)
    (n.name.length / 256 % 256) (n.name.length % 256)
    (n.name ++ encodeServerNames ns) tl size hwf (by rw [hexts, hdata]) hpre
    (by rw [u16_read _ hlen2, hL, List.length_append]; omega) hfit
  refine ⟨hmain, ?_⟩
  intro hns
  rw [hmain, hns]
  simp [encodeServerNames]

/-- Witness of `C10_ReadSNI_rest_of_extension`: the ClientHello with the one
host name `a.b`, followed by three more bytes of the stream, through a buffer
of 4096 bytes. -/
theorem C10_ReadSNI_rest_of_extension_witness :
    ReadSNIFromClientHello { stream := helloOneName.record ++ [1, 2, 3], size := 4096 } =
      .ok [97, 46, 98] :=
  (C10_ReadSNI_rest_of_extension helloOneName [⟨0x0a, [0, 2, 0, 0x1d]⟩] [⟨0x0b, [1, 0]⟩]
    ⟨0, [97, 46, 98]⟩ [] [1, 2, 3] 4096 helloOneName_wellFormed (by decide) (by decide)
    (by decide) (by decide)).2 rfl

/-! ## ReadSNIFromClientHello without bounds checks -/

theorem Slice.View.index_nil {s : Slice} (h : s.View []) (i : Nat) :
    s.index i = .error .panic := by
  have hlen := h.length_eq
  simp only [List.length_nil] at hlen
  simp only [Slice.index, Slice.len]
  rw [if_neg (by omega)]

/-- The extension loop on a record whose extensions all have a type other
than 0: it runs past the last extension and panics on `fullRecord[0]`. -/
theorem extensionLoop_no_server_name :
    ∀ (es : List Extension), (∀ e ∈ es, e.type ≠ 0 ∧ e.type < 65536 ∧ e.data.length < 65536) →
      ∀ (fuel : Nat) (s : Slice), es.length < fuel → s.View (encodeExtensions es) →
        extensionLoop fuel s = .error .panic := by
  intro es
  induction es with
  | nil =>
    intro _ fuel s hfuel hv
    obtain ⟨f, rfl⟩ : ∃ f, fuel = f + 1 := ⟨fuel - 1, by omega⟩
    have i0 := Slice.View.index_nil (by simpa [encodeExtensions] using hv) 0
    simp [extensionLoop, bind, Except.bind, i0]
  | cons e es ih =>
    intro hes fuel s hfuel hv
    obtain ⟨f, rfl⟩ : ∃ f, fuel = f + 1 := ⟨fuel - 1, by omega⟩
    obtain ⟨ht0, ht, hd⟩ := hes e (List.mem_cons_self _ _)
    have hv' : s.View (([e.type / 256 % 256, e.type % 256, e.data.length / 256 % 256,
        e.data.length % 256] ++ e.data) ++ encodeExtensions es) := by
      simpa [encodeExtensions, Extension.encode, u16] using hv
    have i0 := hv'.index 0 (by simp)
    have i1 := hv'.index 1 (by simp)
    have i2 := hv'.index 2 (by simp)
    have i3 := hv'.index 3 (by simp)
    simp only [List.cons_append, List.nil_append, List.getD_cons_zero, List.getD_cons_succ]
      at i0 i1 i2 i3
    have hlen := u16_read e.data.length hd
    have htype := u16_read e.type ht
    obtain ⟨s1, hs1, hv1⟩ := hv'.sliceFrom
      (4 + (e.data.length / 256 % 256 * 256 + e.data.length % 256))
      (by simp only [List.length_append, List.length_cons, List.length_nil]; omega)
    have hrec := ih (fun x hx => hes x (List.mem_cons_of_mem _ hx)) f s1
      (by simp only [List.length_cons] at hfuel; omega) hv1
    have hne : ¬ (e.type / 256 % 256 * 256 + e.type % 256 = 0) := by omega
    simp [extensionLoop, bind, Except.bind, i0, i1, i2, i3, hs1, hne, hrec]

/-- On a reader that delivers the record of a well-formed ClientHello and
whose buffer holds the record, `ReadSNIFromClientHello` reaches its extension
loop with a slice that shows the extensions of the ClientHello. -/
theorem ReadSNIFromClientHello_reaches_loop (ch : ClientHello) (tl : List Nat) (size : Nat)
    (hwf : ch.WellFormed) (hfit : ch.record.length ≤ size) :
    ∃ s', s'.View (encodeExtensions ch.extensions) ∧
      ReadSNIFromClientHello { stream := ch.record ++ tl, size := size } =
        extensionLoop (s'.len + 1) s' := by
  have hhl : ch.handshake.length < 65536 := hwf.2.2.2.2.2.2
  have hrl := ch.record_length
  have hhs := ch.handshake_length
  have hstream : ch.record ++ tl =
      0x16 :: 0x03 :: 0x01 :: (ch.handshake.length / 256 % 256) :: (ch.handshake.length % 256) ::
        1 :: (ch.body.length / 65536 % 256) :: (ch.body.length / 256 % 256) ::
        (ch.body.length % 256) :: (ch.body ++ tl) := by
    simp [ClientHello.record, ClientHello.handshake, u16, u24]
  have hsl : (ch.record ++ tl).length = 5 + ch.handshake.length + tl.length := by
    rw [List.length_append, hrl]
  obtain ⟨header, hpeek1, hvh, hlenh⟩ :=
    Reader.Peek_view { stream := ch.record ++ tl, size := size } 9 (by show 9 ≤ size; omega)
      (by show 9 ≤ (ch.record ++ tl).length; omega)
  have hidx : ∀ i, i < 9 → header.index i = .ok ((ch.record ++ tl).getD i 0) := fun i hi =>
    Reader.Peek_index { stream := ch.record ++ tl, size := size } 9 header hvh
      (by show 9 ≤ (ch.record ++ tl).length; omega) i hi
  have h0 := hidx 0 (by omega)
  have h1 := hidx 1 (by omega)
  have h2 := hidx 2 (by omega)
  have h3 := hidx 3 (by omega)
  have h4 := hidx 4 (by omega)
  simp only [hstream, List.getD_cons_zero, List.getD_cons_succ] at h0 h1 h2 h3 h4
  have hread := u16_read ch.handshake.length hhl
  obtain ⟨full, hpeek2, hvf, hlenf⟩ :=
    Reader.Peek_view { stream := ch.record ++ tl, size := size }
      (5 + (ch.handshake.length / 256 % 256 * 256 + ch.handshake.length % 256))
      (by rw [hread]; show 5 + ch.handshake.length ≤ size; omega)
      (by rw [hread]; show 5 + ch.handshake.length ≤ (ch.record ++ tl).length; omega)
  have htake : (ch.record ++ tl).take
      (5 + (ch.handshake.length / 256 % 256 * 256 + ch.handshake.length % 256)) = ch.record := by
    rw [hread, ← hrl]
    exact List.take_left _ _
  simp only [htake] at hvf
  obtain ⟨s', hskip, hvs⟩ := skipToExtensions_spec ch hwf full hvf
  have hnot : ¬ header.len < 9 := by omega
  have hlen5 : ¬ (ch.handshake.length / 256 % 256 * 256 + ch.handshake.length % 256 + 5
      ≠ full.len) := by
    rw [hlenf]
    omega
  refine ⟨s', hvs, ?_⟩
  simp only [ReadSNIFromClientHello, hpeek1, hnot, if_false, bind, Except.bind, h0, h1, h2, h3, h4,
    hpeek2, hlen5, hskip, pure, Except.pure, ne_eq, not_true_eq_false, or_self,
    throw, throwThe, MonadExceptOf.throw]

/-- On every well-formed ClientHello without an extension of type 0, read
through a buffer that holds the record, `ReadSNIFromClientHello` panics. -/
theorem ReadSNIFromClientHello_no_server_name (ch : ClientHello) (tl : List Nat) (size : Nat)
    (hwf : ch.WellFormed) (hno : ∀ e ∈ ch.extensions, e.type ≠ 0)
    (hfit : ch.record.length ≤ size) :
    ReadSNIFromClientHello { stream := ch.record ++ tl, size := size } = .error .panic := by
  obtain ⟨s', hv, hrun⟩ := ReadSNIFromClientHello_reaches_loop ch tl size hwf hfit
  rw [hrun]
  refine extensionLoop_no_server_name ch.extensions ?_ (s'.len + 1) s' ?_ hv
  · intro e he
    have := hwf.2.2.2.2.2.1 e he
    exact ⟨hno e he, this.1, this.2⟩
  · have h1 := length_le_encodeExtensions ch.extensions
    have h2 := hv.length_eq
    simp only [Slice.len]
    omega

theorem helloNoServerName_wellFormed : helloNoServerName.WellFormed := by
  refine ⟨by decide, by decide, by decide, by decide, by decide, ?_, by decide⟩
  intro e he
  simp only [helloNoServerName, List.mem_singleton] at he
  subst he
  decide

/-- C11, at the failing input: on the record of a complete, well-formed
ClientHello whose only extension is `supported_groups` (type 0x000a), read
through the 4096-byte buffer of the program, `ReadSNIFromClientHello` does not
return an error: it panics (index out of range after the last extension). -/
theorem C11_no_server_name_panics :
    helloNoServerName.WellFormed ∧
    helloNoServerName.extensions.map (fun e => e.type) = [0x0a] ∧
    ReadSNIFromClientHello { stream := helloNoServerName.record, size := 4096 } =
      .error .panic ∧
    ∀ e : SNIError,
      ReadSNIFromClientHello { stream := helloNoServerName.record, size := 4096 } ≠
        .error (.error e) := by
  have hrun : ReadSNIFromClientHello { stream := helloNoServerName.record, size := 4096 } =
      .error .panic := by
    have := ReadSNIFromClientHello_no_server_name helloNoServerName [] 4096
      helloNoServerName_wellFormed
      (by
        intro e he
        simp only [helloNoServerName, List.mem_singleton] at he
        subst he
        decide)
      (by decide)
    simpa using this
  refine ⟨helloNoServerName_wellFormed, by decide, hrun, ?_⟩
  intro e h
  rw [hrun] at h
  cases h

/-- On a stream that starts with an accepted record header declaring an empty
record, `ReadSNIFromClientHello` panics on `fullRecord[0]`, whatever follows
the header. -/
theorem ReadSNIFromClientHello_empty_record (rest : List Nat) (size : Nat)
    (hrest : 4 ≤ rest.length) (hsize : 9 ≤ size) :
    ReadSNIFromClientHello { stream := [0x16, 0x03, 0x01, 0, 0] ++ rest, size := size } =
      .error .panic := by
  have hsl : ([0x16, 0x03, 0x01, 0, 0] ++ rest).length = 5 + rest.length := by simp; omega
  obtain ⟨header, hpeek1, hvh, hlenh⟩ :=
    Reader.Peek_view { stream := [0x16, 0x03, 0x01, 0, 0] ++ rest, size := size } 9
      (by show 9 ≤ size; omega)
      (by show 9 ≤ ([0x16, 0x03, 0x01, 0, 0] ++ rest).length; omega)
  have hidx : ∀ i, i < 9 →
      header.index i = .ok (([0x16, 0x03, 0x01, 0, 0] ++ rest).getD i 0) := fun i hi =>
    Reader.Peek_index { stream := [0x16, 0x03, 0x01, 0, 0] ++ rest, size := size } 9 header hvh
      (by show 9 ≤ ([0x16, 0x03, 0x01, 0, 0] ++ rest).length; omega) i hi
  have h0 := hidx 0 (by omega)
  have h1 := hidx 1 (by omega)
  have h2 := hidx 2 (by omega)
  have h3 := hidx 3 (by omega)
  have h4 := hidx 4 (by omega)
  simp only [List.cons_append, List.nil_append, List.getD_cons_zero, List.getD_cons_succ]
    at h0 h1 h2 h3 h4
  obtain ⟨full, hpeek2, hvf, hlenf⟩ :=
    Reader.Peek_view { stream := [0x16, 0x03, 0x01, 0, 0] ++ rest, size := size } (5 + (0 * 256 + 0))
      (by show 5 + (0 * 256 + 0) ≤ size; omega)
      (by show 5 + (0 * 256 + 0) ≤ ([0x16, 0x03, 0x01, 0, 0] ++ rest).length; omega)
  have hvf' : full.View ([0x16, 0x03, 0x01, 0, 0] ++ []) := by
    have : ([0x16, 0x03, 0x01, 0, 0] ++ rest).take (5 + (0 * 256 + 0)) =
        [0x16, 0x03, 0x01, 0, 0] ++ [] := by simp
    rw [← this]
    exact hvf
  obtain ⟨s1, hs1, hv1⟩ := hvf'.sliceFrom 5 rfl
  have i1 := hv1.index_nil 0
  have hnot : ¬ header.len < 9 := by omega
  have hlen5 : ¬ (0 * 256 + 0 + 5 ≠ full.len) := by
    rw [hlenf]
    omega
  simp only [ReadSNIFromClientHello, hpeek1, hnot, if_false, bind, Except.bind, h0, h1, h2, h3, h4,
    hpeek2, hlen5, skipToExtensions, hs1, i1, pure, Except.pure, ne_eq, not_true_eq_false,
    or_self, throw, throwThe, MonadExceptOf.throw]

/-- C12, at the failing input: on the accepted record header 16 03 01 00 00
(an empty record) followed by four more bytes, read through the 4096-byte
buffer of the program, `ReadSNIFromClientHello` does not return an error: the
index expression `fullRecord[0]` is out of range and it panics. -/
theorem C12_truncated_record_panics :
    ReadSNIFromClientHello { stream := emptyRecordStream, size := 4096 } = .error .panic ∧
    ∀ e : SNIError,
      ReadSNIFromClientHello { stream := emptyRecordStream, size := 4096 } ≠
        .error (.error e) := by
  have hrun : ReadSNIFromClientHello { stream := emptyRecordStream, size := 4096 } =
      .error .panic :=
    ReadSNIFromClientHello_empty_record [0x16, 0x03, 0x01, 0] 4096 (by decide) (by decide)
  refine ⟨hrun, ?_⟩
  intro e h
  rw [hrun] at h
  cases h

/-! ## GetNextOpen on every argument -/

theorem startAfter_sixty_four : startAfter 64 = 0 := by
  set_option maxRecDepth 100000 in decide

/-- C19: `GetNextOpen` ends on every argument (any fuel of 65 rounds or more
gives its value; the loop variable is 0 after 64 doublings), and the value it
returns is positive and of the form `5 * 2 ^ j`. -/
theorem C19_GetNextOpen_total (length : Int) :
    (∀ fuel, 65 ≤ fuel → GetNextOpenLoop fuel 5 length = some (GetNextOpen length)) ∧
    startAfter 64 = 0 ∧
    0 < GetNextOpen length ∧
    ∃ j, GetNextOpen length = 5 * 2 ^ j := by
  have hform : ∃ j, GetNextOpen length = 5 * 2 ^ j := by
    by_cases h : length < 5 * 2 ^ 60
    · obtain ⟨j, -, he, -, -⟩ := GetNextOpen_least length h
      exact ⟨j, he⟩
    · have hge : (5 : Int) * 2 ^ 60 ≤ length := not_lt.mp h
      have h65 := GetNextOpenLoop_enough length 65 (le_refl _)
      have hmiss := GetNextOpenLoop_miss length 60 0 5 (by omega)
        (fun i _ hi => le_trans (schedule_mono (by omega : i ≤ 60)) hge)
      simp only [pow_zero, mul_one, Nat.zero_add] at hmiss
      rw [hmiss, GetNextOpenLoop_wrap length hge 5 (le_refl _)] at h65
      exact ⟨0, by simpa using (Option.some.inj h65).symm⟩
  refine ⟨fun fuel hf => GetNextOpenLoop_enough length fuel hf, startAfter_sixty_four, ?_, hform⟩
  obtain ⟨j, hj⟩ := hform
  rw [hj]
  exact schedule_pos j

/-- Witness of `C19_GetNextOpen_total`: the largest 64-bit `int`. -/
theorem C19_GetNextOpen_total_witness :
    GetNextOpenLoop 65 5 9223372036854775807 = some (GetNextOpen 9223372036854775807) :=
  (C19_GetNextOpen_total 9223372036854775807).1 65 (le_refl _)

/-! ## PublicServerHandler -/

theorem stringsSplit_head (sep : Nat) (s : List Nat) :
    ∃ pieces, stringsSplit sep s = s.takeWhile (fun c => decide (c ≠ sep)) :: pieces := by
  induction s with
  | nil => exact ⟨[], rfl⟩
  | cons c cs ih =>
    obtain ⟨pieces, hp⟩ := ih
    by_cases hc : c = sep
    · exact ⟨stringsSplit sep cs, by simp [stringsSplit, hc]⟩
    · exact ⟨pieces, by simp [stringsSplit, hc, hp]⟩

/-- C13: for every SNI string the subdomain `PublicServerHandler` routes with
is the part of the SNI before its first `.`, the whole SNI when it has no `.`;
`foo.bar.example` routes with `foo` and `bar.example` with `bar`. -/
theorem C13_subdomain_is_leftmost_label (sniName : List Nat) :
    routeSubdomain sniName = some (sniName.takeWhile (fun c => decide (c ≠ 46))) ∧
    routeSubdomain (bytesOf "foo.bar.example") = some (bytesOf "foo") ∧
    routeSubdomain (bytesOf "bar.example") = some (bytesOf "bar") ∧
    routeSubdomain (bytesOf "localhost") = some (bytesOf "localhost") := by
  refine ⟨?_, by decide, by decide, by decide⟩
  obtain ⟨pieces, hp⟩ := stringsSplit_head 46 sniName
  simp [routeSubdomain, hp]

theorem acquireLoop_calls (ticks : List Tick) :
    ∀ (calledOpened : Bool) (calls : List LoopCall),
      ((acquireLoop ticks calledOpened calls).2.count .openMoreConns ≤
        calls.count .openMoreConns + (if calledOpened then 0 else 1)) ∧
      (calledOpened = true →
        (acquireLoop ticks calledOpened calls).2.count .openMoreConns =
          calls.count .openMoreConns) := by
  induction ticks with
  | nil =>
    intro calledOpened calls
    exact ⟨by simp [acquireLoop], fun _ => by simp [acquireLoop]⟩
  | cons t ticks ih =>
    intro calledOpened calls
    cases t with
    | ctxDone => exact ⟨by simp [acquireLoop], fun _ => by simp [acquireLoop]⟩
    | getConn r =>
      cases r with
      | ok c =>
        exact ⟨by simp [acquireLoop, List.count_append], fun _ => by
          simp [acquireLoop, List.count_append]⟩
      | error e =>
        by_cases he : e = .PoolEmptyError
        · subst he
          cases calledOpened with
          | false =>
            have h := (ih true (calls ++ [.getConn, .openMoreConns, .sleep])).2 rfl
            have e : acquireLoop (.getConn (.error .PoolEmptyError) :: ticks) false calls =
                acquireLoop ticks true (calls ++ [.getConn, .openMoreConns, .sleep]) := by
              simp [acquireLoop]
            refine ⟨?_, fun h => by cases h⟩
            rw [e, h]
            simp [List.count_append, List.count_cons]
          | true =>
            have h := (ih true (calls ++ [.getConn, .sleep])).2 rfl
            have hc : (calls ++ [LoopCall.getConn, LoopCall.sleep]).count .openMoreConns =
                calls.count .openMoreConns := by
              simp [List.count_append, List.count_cons]
            have e : acquireLoop (.getConn (.error .PoolEmptyError) :: ticks) true calls =
                acquireLoop ticks true (calls ++ [.getConn, .sleep]) := by
              simp [acquireLoop]
            refine ⟨?_, fun _ => ?_⟩
            · rw [e, h, hc]
              simp
            · rw [e, h, hc]
        · exact ⟨by simp [acquireLoop, he, List.count_append], fun _ => by
            simp [acquireLoop, he, List.count_append]⟩

/-- C14: in the acquire loop of one visitor, whatever the sequence of
observations (deadline or `GetConn` results), `OpenMoreConns` is called at
most once, and exactly once when the first pass is a `GetConn` that returns
`PoolEmptyError`. -/
theorem C14_OpenMoreConns_at_most_once (ticks : List Tick) :
    (acquire ticks).2.count .openMoreConns ≤ 1 ∧
    (∀ rest, ticks = .getConn (.error .PoolEmptyError) :: rest →
      (acquire ticks).2.count .openMoreConns = 1) := by
  refine ⟨by simpa [acquire] using (acquireLoop_calls ticks false []).1, ?_⟩
  intro rest hrest
  subst hrest
  have h := (acquireLoop_calls rest true [.getConn, .openMoreConns, .sleep]).2 rfl
  have e : acquire (.getConn (.error .PoolEmptyError) :: rest) =
      acquireLoop rest true [.getConn, .openMoreConns, .sleep] := by
    simp [acquire, acquireLoop]
  rw [e, h]
  decide

/-- Witness of `C14_OpenMoreConns_at_most_once`: three empty pools, then the
deadline. -/
theorem C14_OpenMoreConns_at_most_once_witness :
    (acquire [.getConn (.error .PoolEmptyError), .getConn (.error .PoolEmptyError),
      .getConn (.error .PoolEmptyError), .ctxDone]).2.count .openMoreConns = 1 :=
  (C14_OpenMoreConns_at_most_once _).2 _ rfl

/-! ## Handlers of the control connection -/

/-- C15, at the failing input: with the session `S0`/`alpha` live, a Tunnel
request with the valid token, session id `S1` and subdomain `alpha` makes
`AddSession` fail, and `HandleTunnelServer` returns without writing a byte:
the reply is not the byte 00 of `WriteBool(false)`, and `ReadBool` on the
client side fails with `EOF` instead of reading `false`. -/
theorem C15_taken_subdomain_no_reply :
    NewTokenStore.GetToken "LN97ccrfGrZX4rtiATmdDKImbQnbMW8BYWBWVrnfQpw=" = some "--" ∧
    HasSubdomain liveAlpha.pool "alpha" = true ∧
    (HandleTunnelServer liveAlpha 2
      (tunnelRequest "LN97ccrfGrZX4rtiATmdDKImbQnbMW8BYWBWVrnfQpw=" "S1" "alpha")).map
        (fun r => r.2) = some [] ∧
    WriteBool false = [0] ∧
    (ReadBool []).toOption = none := by
  refine ⟨by decide, by decide, ?_, by decide, by decide⟩
  set_option maxRecDepth 100000 in decide

/-- C16, at the failing input: with the session `S0`/`alpha` live, a Tunnel
request with the valid token that names the session id `S0` and the subdomain
`alpha` makes `AddSession` return `SubdomainAlreadyExistsError`, and when
`HandleTunnelServer` returns the deferred `RemoveSession("S0")` has deleted the
live session from both indexes. -/
theorem C16_failed_request_removes_live_session :
    liveAlpha.pool.cp.Sessions.get "S0" = some 0 ∧
    liveAlpha.pool.cp.SubdomainToSession.get "alpha" = some 0 ∧
    (AddSession liveAlpha.pool "S0" "alpha" 2).1.toOption = none ∧
    (HandleTunnelServer liveAlpha 2
      (tunnelRequest "LN97ccrfGrZX4rtiATmdDKImbQnbMW8BYWBWVrnfQpw=" "S0" "alpha")).map
        (fun r => (r.1.pool.cp.Sessions, r.1.pool.cp.SubdomainToSession, r.2)) =
      some ([], [], []) := by
  refine ⟨by decide, by decide, by decide, ?_⟩
  set_option maxRecDepth 100000 in decide

/-- C20, at the failing input: when `rand.Read` fails, `HandleRegisterAction`
writes nothing but has stored the empty string as a token: before the
request `HandleLoginAction` answers an empty token with 00, afterwards with
01. -/
theorem C20_failed_register_stores_empty_token :
    ∀ encodeToString : List Nat → String,
      GenerateToken encodeToString (fun _ => none) 32 = ("", true) ∧
      (HandleRegisterAction encodeToString (fun _ => none) freshServer).2 = [] ∧
      freshServer.tokens.GetToken "" = none ∧
      (HandleRegisterAction encodeToString (fun _ => none) freshServer).1.tokens.GetToken "" =
        some "" ∧
      HandleLoginAction freshServer (lengthPrefixed "") = WriteBool false ∧
      HandleLoginAction (HandleRegisterAction encodeToString (fun _ => none) freshServer).1
        (lengthPrefixed "") = WriteBool true := by
  intro encodeToString
  have h : HandleRegisterAction encodeToString (fun _ => none) freshServer =
      ({ freshServer with tokens := freshServer.tokens.AddToken "" "" }, []) := rfl
  rw [h]
  exact ⟨rfl, rfl, by decide, by decide, by decide, by decide⟩

/-! ## The idle queue is first in, first out -/

theorem deref_set_self (w : State) (p : Ptr) (s s2 : Session) (hs : w.deref p = some s) :
    ({ w with heap := w.heap.set p s2 } : State).deref p = some s2 := by
  have hlt : p < w.heap.length := by
    simp only [State.deref] at hs
    exact (List.getElem?_eq_some.mp hs).1
  simp [State.deref, List.getElem?_set_self hlt]

theorem deref_set_ne (w : State) (p q : Ptr) (s2 : Session) (hq : q ≠ p) :
    ({ w with heap := w.heap.set p s2 } : State).deref q = w.deref q := by
  simp [State.deref, List.getElem?_set_ne (Ne.symm hq)]

theorem PutConn_ok (w : State) (id : String) (p : Ptr) (s : Session) (c : Conn)
    (hid : w.cp.Sessions.get id = some p) (hs : w.deref p = some s)
    (hlen : s.Connections.length < MAX_CHAN_SIZE) :
    PutConn w id c = some (none,
      { w with heap := w.heap.set p { s with Connections := s.Connections ++ [c] } }) := by
  simp [PutConn, IsSessionInPool, GoMap.has, hid, hs, hlen]

theorem GetConn_ok (w : State) (id : String) (p : Ptr) (s : Session) (c : Conn)
    (rest : List Conn) (hid : w.cp.Sessions.get id = some p) (hs : w.deref p = some s)
    (hq : s.Connections = c :: rest) :
    GetConn w id = some (.ok c,
      { w with heap := w.heap.set p { s with Connections := rest } }) := by
  simp [GetConn, IsSessionInPool, GoMap.has, hid, hs, hq]

theorem GetConn_empty (w : State) (id : String) (p : Ptr) (s : Session)
    (hid : w.cp.Sessions.get id = some p) (hs : w.deref p = some s)
    (hq : s.Connections = []) :
    GetConn w id = some (.error .PoolEmptyError, w) := by
  simp [GetConn, IsSessionInPool, GoMap.has, hid, hs, hq]

theorem PutConnAll_spec (id : String) (p : Ptr) :
    ∀ (cs : List Conn) (w : State) (s : Session), w.cp.Sessions.get id = some p →
      w.deref p = some s → s.Connections.length + cs.length ≤ MAX_CHAN_SIZE →
      ∃ w1, PutConnAll cs w id = some (cs.map (fun _ => none), w1) ∧ w1.cp = w.cp ∧
        w1.deref p = some { s with Connections := s.Connections ++ cs } ∧
        ∀ q, q ≠ p → w1.deref q = w.deref q := by
  intro cs
  induction cs with
  | nil =>
    intro w s _ hs _
    exact ⟨w, rfl, rfl, by simpa using hs, fun _ _ => rfl⟩
  | cons c cs ih =>
    intro w s hid hs hlen
    simp only [List.length_cons] at hlen
    have hput := PutConn_ok w id p s c hid hs (by omega)
    have hlen2 : (s.Connections ++ [c]).length + cs.length ≤ MAX_CHAN_SIZE := by
      simp only [List.length_append, List.length_cons, List.length_nil]
      omega
    obtain ⟨w1, hrun, hcp, hd, hothers⟩ :=
      ih { w with heap := w.heap.set p { s with Connections := s.Connections ++ [c] } }
        { s with Connections := s.Connections ++ [c] } hid
        (deref_set_self w p s _ hs) hlen2
    refine ⟨w1, ?_, hcp, ?_, ?_⟩
    · simp [PutConnAll, hput, hrun]
    · simpa using hd
    · intro q hq
      rw [hothers q hq, deref_set_ne w p q _ hq]

theorem GetConnTimes_spec (id : String) (p : Ptr) :
    ∀ (cs : List Conn) (w : State) (s : Session) (rest : List Conn),
      w.cp.Sessions.get id = some p → w.deref p = some s → s.Connections = cs ++ rest →
      ∃ w2, GetConnTimes cs.length w id = some (cs.map Except.ok, w2) ∧ w2.cp = w.cp ∧
        w2.deref p = some { s with Connections := rest } ∧
        ∀ q, q ≠ p → w2.deref q = w.deref q := by
  intro cs
  induction cs with
  | nil =>
    intro w s rest _ hs hq
    refine ⟨w, rfl, rfl, ?_, fun _ _ => rfl⟩
    simp only [List.nil_append] at hq
    rw [hs, ← hq]
  | cons c cs ih =>
    intro w s rest hid hs hq
    have hget := GetConn_ok w id p s c (cs ++ rest) hid hs (by simpa using hq)
    obtain ⟨w2, hrun, hcp, hd, hothers⟩ :=
      ih { w with heap := w.heap.set p { s with Connections := cs ++ rest } }
        { s with Connections := cs ++ rest } rest hid (deref_set_self w p s _ hs) rfl
    refine ⟨w2, ?_, hcp, hd, ?_⟩
    · simp [GetConnTimes, hget, hrun]
    · intro q hq'
      rw [hothers q hq', deref_set_ne w p q _ hq']

/-- C17: for every session of `Sessions` with an empty queue and every list of
at most `MAX_CHAN_SIZE = 99999` workers, putting the workers with `PutConn`
succeeds each time, the next `GetConn` calls, as many, return the workers in
the order they were put, one more `GetConn` returns `PoolEmptyError`, and the
sessions at other addresses are as they were, after the puts and after the
gets. -/
theorem C17_queue_is_fifo (w : State) (id : String) (p : Ptr) (s : Session) (cs : List Conn)
    (hid : w.cp.Sessions.get id = some p) (hs : w.deref p = some s)
    (hempty : s.Connections = []) (hn : cs.length ≤ MAX_CHAN_SIZE) :
    ∃ w1 w2, PutConnAll cs w id = some (cs.map (fun _ => none), w1) ∧
      GetConnTimes cs.length w1 id = some (cs.map Except.ok, w2) ∧
      GetConn w2 id = some (.error .PoolEmptyError, w2) ∧
      ∀ q, q ≠ p → w1.deref q = w.deref q ∧ w2.deref q = w.deref q := by
  obtain ⟨w1, hput, hcp1, hd1, ho1⟩ :=
    PutConnAll_spec id p cs w s hid hs (by rw [hempty]; simpa using hn)
  obtain ⟨w2, hget, hcp2, hd2, ho2⟩ :=
    GetConnTimes_spec id p cs w1 { s with Connections := s.Connections ++ cs } []
      (by rw [hcp1]; exact hid) hd1 (by simp [hempty])
  refine ⟨w1, w2, hput, hget, ?_, ?_⟩
  · exact GetConn_empty w2 id p _ (by rw [hcp2, hcp1]; exact hid) hd2 rfl
  · intro q hq
    exact ⟨ho1 q hq, by rw [ho2 q hq, ho1 q hq]⟩

/-- Witness of `C17_queue_is_fifo`: two workers through the queue of the
session `S0`/`alpha`. -/
theorem C17_queue_is_fifo_witness :
    ∃ w1 w2, PutConnAll [workerA, workerB] liveAlpha.pool "S0" = some ([none, none], w1) ∧
      GetConnTimes 2 w1 "S0" = some ([.ok workerA, .ok workerB], w2) ∧
      GetConn w2 "S0" = some (.error .PoolEmptyError, w2) ∧
      ∀ q, q ≠ 0 → w1.deref q = liveAlpha.pool.deref q ∧ w2.deref q = liveAlpha.pool.deref q :=
  C17_queue_is_fifo liveAlpha.pool "S0" 0
    { SessionID := "S0", Subdomain := "alpha", TunnelConn := 1, Connections := [],
      NextOpen := 5 }
    [workerA, workerB] (by decide) (by decide) rfl (by decide)

/-! ## The sniffer pairs requests and responses in order -/

theorem ReqResQueue.run_spec {Req Resp : Type} :
    ∀ (calls : List (QueueCall Req Resp)) (rrq : ReqResQueue Req Resp),
      (rrq.Requests = [] ∨ rrq.Responses = []) →
      ∃ q, ReqResQueue.run calls rrq = some q ∧
        q.printed.map Prod.fst ++ q.Requests =
          rrq.printed.map Prod.fst ++ rrq.Requests ++ requestsOf calls ∧
        q.printed.map Prod.snd ++ q.Responses =
          rrq.printed.map Prod.snd ++ rrq.Responses ++ responsesOf calls ∧
        (q.Requests = [] ∨ q.Responses = []) := by
  intro calls
  induction calls with
  | nil =>
    intro rrq h
    exact ⟨rrq, rfl, by simp [requestsOf], by simp [responsesOf], h⟩
  | cons c calls ih =>
    intro rrq h
    obtain ⟨R, P, L⟩ := rrq
    cases c with
    | addRequest req =>
      cases P with
      | nil =>
        obtain ⟨q, hq, h1, h2, h3⟩ := ih ⟨R ++ [req], [], L⟩ (Or.inr rfl)
        refine ⟨q, ?_, ?_, ?_, h3⟩
        · simpa [ReqResQueue.run, ReqResQueue.AddRequest] using hq
        · simpa [requestsOf] using h1
        · simpa [responsesOf] using h2
      | cons resp P =>
        have hR : R = [] := by
          rcases h with h | h
          · exact h
          · cases h
        subst hR
        obtain ⟨q, hq, h1, h2, h3⟩ := ih ⟨[], P, L ++ [(req, resp)]⟩ (Or.inl rfl)
        refine ⟨q, ?_, ?_, ?_, h3⟩
        · simpa [ReqResQueue.run, ReqResQueue.AddRequest, ReqResQueue.LogResponse] using hq
        · simpa [requestsOf] using h1
        · simpa [responsesOf] using h2
    | addResponse resp =>
      cases R with
      | nil =>
        obtain ⟨q, hq, h1, h2, h3⟩ := ih ⟨[], P ++ [resp], L⟩ (Or.inl rfl)
        refine ⟨q, ?_, ?_, ?_, h3⟩
        · simpa [ReqResQueue.run, ReqResQueue.AddResponse] using hq
        · simpa [requestsOf] using h1
        · simpa [responsesOf] using h2
      | cons req R =>
        have hP : P = [] := by
          rcases h with h | h
          · cases h
          · exact h
        subst hP
        obtain ⟨q, hq, h1, h2, h3⟩ := ih ⟨R, [], L ++ [(req, resp)]⟩ (Or.inr rfl)
        refine ⟨q, ?_, ?_, ?_, h3⟩
        · simpa [ReqResQueue.run, ReqResQueue.AddResponse, ReqResQueue.LogResponse] using hq
        · simpa [requestsOf] using h1
        · simpa [responsesOf] using h2

theorem zip_of_split {α β : Type} (L : List (α × β)) (A : List α) (B : List β)
    (h : A = [] ∨ B = []) :
    List.zip (L.map Prod.fst ++ A) (L.map Prod.snd ++ B) = L := by
  rw [List.zip_append (by simp)]
  have hz : List.zip A B = [] := by
    rcases h with h | h <;> simp [h]
  rw [hz, List.append_nil]
  induction L with
  | nil => rfl
  | cons x L ih => simp [ih]

/-- C18: after every sequence of `AddRequest` and `AddResponse` calls on an
empty `ReqResQueue`, the pairs printed so far are, in order, the i-th request
added with the i-th response added; their number is the minimum of the
numbers of requests and of responses added; at least one of the two pending
lists is empty, the other holds what is not yet paired. -/
theorem C18_pairs_in_order (Req Resp : Type) (calls : List (QueueCall Req Resp)) :
    ∃ q, ReqResQueue.run calls (NewReqResQueue Req Resp) = some q ∧
      q.printed = List.zip (requestsOf calls) (responsesOf calls) ∧
      q.printed.length = min (requestsOf calls).length (responsesOf calls).length ∧
      (q.Requests = [] ∨ q.Responses = []) ∧
      q.Requests = (requestsOf calls).drop q.printed.length ∧
      q.Responses = (responsesOf calls).drop q.printed.length := by
  obtain ⟨q, hq, h1, h2, h3⟩ :=
    ReqResQueue.run_spec calls (NewReqResQueue Req Resp) (Or.inl rfl)
  simp only [NewReqResQueue, List.map_nil, List.nil_append] at h1 h2
  have hz : q.printed = List.zip (requestsOf calls) (responsesOf calls) := by
    rw [← h1, ← h2, zip_of_split q.printed q.Requests q.Responses h3]
  refine ⟨q, hq, hz, ?_, h3, ?_, ?_⟩
  · rw [hz, List.length_zip]
  · rw [← h1]
    simp
  · rw [← h2]
    simp

end Harlot
